import Mathlib

/-!
# Builder / image matching (`pkg/skaffold/initializer/build/util.go`)

A shallow embedding of `matchBuildersToImages`, `findExactlyOneMatchingBuilder`,
`stripTags` and `Artifacts`, followed by the properties established for them.

Conventions of the embedding:

* a Go slice is a `List`; an `int` index is an `Int` (indices never leave the
  range of a slice length, so no wrap-around is involved);
* an operation that panics in Go (index or slice bound out of range) yields
  `none`;
* `warnings.Printf` and `fmt.Fprintf(os.Stdout, …)` append a line to an explicit
  log carried in the loop state;
* the image-reference parser (`docker.ParseReference`) and the directory
  function (`filepath.Dir`) are parameters of the functions that call them;
* `matchBuildersToImages` is embedded through the values it returns;
  `matchBuildersToImagesInPlace` is the same function with the backing array
  of the slice passed by the caller made part of the state.
-/

namespace Skaffold

/-! ## Data model -/

/-- The fields of `latest.Artifact` that this file reads or writes.
`Workspace = ""` is Go's zero value, that is "unset". `BuilderFields` stands for
the builder-specific part of the record, which only `UpdateArtifact` touches. -/
structure Artifact where
  ImageName : String
  Workspace : String
  BuilderFields : List String

/-- The `InitBuilder` interface: the three methods used by this file. A builder
is a value; `UpdateArtifact` mutates the artifact it is given, which is
rendered as a function from the old record to the new one. -/
structure InitBuilder where
  ConfiguredImage : String
  Path : String
  UpdateArtifact : Artifact → Artifact

/-- The struct `BuilderImagePair`. -/
structure BuilderImagePair where
  ImageName : String
  Builder : InitBuilder

/-- The fields of the result of `docker.ParseReference` that `stripTags` reads
(`BaseName`, `Digest`) together with the tag. -/
structure ImageReference where
  BaseName : String
  Tag : String
  Digest : String

/-- The type of an image-reference parser: either an error message
(`err.Error()`) or a parsed reference. -/
abbrev ReferenceParser := String → Except String ImageReference

/-! ## Go slice operations that can panic -/

/-- The expression `s[i]`: defined when `0 ≤ i < len(s)`. -/
def goIndex {α : Type} (s : List α) (i : Int) : Option α :=
  if 0 ≤ i then s[i.toNat]? else none

/-- The expression `s[:i]`: defined when `0 ≤ i ≤ len(s)`. Go accepts `i` up to
`cap(s)`; a list has no capacity, so the bound used here is the stricter one. -/
def goSliceTo {α : Type} (s : List α) (i : Int) : Option (List α) :=
  if 0 ≤ i ∧ i ≤ (s.length : Int) then some (s.take i.toNat) else none

/-- The expression `s[i:]`: defined when `0 ≤ i ≤ len(s)`. -/
def goSliceFrom {α : Type} (s : List α) (i : Int) : Option (List α) :=
  if 0 ≤ i ∧ i ≤ (s.length : Int) then some (s.drop i.toNat) else none

/-! ## `findExactlyOneMatchingBuilder` -/

/-- The `for i, config := range builderConfigs` loop of
`findExactlyOneMatchingBuilder`: `i` is the index of the head of the remaining
slice and `matchingConfigIndex` the variable of that name. The early
`return -1` leaves the loop. -/
def findLoop (image : String) : List InitBuilder → Int → Int → Int
  | [], _, matchingConfigIndex => matchingConfigIndex
  | config :: rest, i, matchingConfigIndex =>
    if image ≠ config.ConfiguredImage then
      findLoop image rest (i + 1) matchingConfigIndex
    else if matchingConfigIndex ≠ -1 then
      -1
    else
      findLoop image rest (i + 1) i

/-- The function `findExactlyOneMatchingBuilder`. -/
def findExactlyOneMatchingBuilder (builderConfigs : List InitBuilder) (image : String) : Int :=
  findLoop image builderConfigs 0 (-1)

/-- The test "this builder is configured for `image`". -/
def isFor (image : String) (b : InitBuilder) : Bool :=
  decide (b.ConfiguredImage = image)

/-- The number of builders of `bs` whose configured image is `image`. -/
def matchCount (bs : List InitBuilder) (image : String) : Nat :=
  bs.countP (isFor image)

/-- The answer obtained by counting all matches first: the position of the
match when there is exactly one, `-1` otherwise. -/
def findByCounting (bs : List InitBuilder) (image : String) : Int :=
  if matchCount bs image = 1 then (bs.findIdx (isFor image) : Int) else -1

/-! ## `sortedSet` -/

/-- Modelled from the spec: the `sortedSet` container used for the unresolved
images, whose declaration is not part of `util.go`. The spec describes it as a
set of strings in which "insertion is idempotent" and whose "iteration yields a
stable sorted order regardless of insertion order". The elements are kept in a
list without repetition. -/
structure sortedSet where
  elems : List String

/-- Modelled from the spec: `make(sortedSet)`, the empty `sortedSet`. -/
def sortedSet.empty : sortedSet := ⟨[]⟩

/-- Modelled from the spec: `sortedSet.add`, an idempotent insertion: a value
already present leaves the set as it is. -/
def sortedSet.add (s : sortedSet) (value : String) : sortedSet :=
  if value ∈ s.elems then s else ⟨value :: s.elems⟩

/-- Modelled from the spec: `sortedSet.values`, the elements in ascending
order (strings are compared character by character, as `sort.Strings` does). -/
def sortedSet.values (s : sortedSet) : List String :=
  s.elems.insertionSort (fun a b => a.toList ≤ b.toList)

/-! ## `stripTags` -/

/-- The state of the loop of `stripTags`: the slice `images` being built and the
lines sent to `warnings.Printf` so far. -/
structure StripState where
  images : List String
  warnings : List String

/-- One iteration of the loop of `stripTags`. -/
def stripTagsStep (parse : ReferenceParser) (st : StripState) (image : String) : StripState :=
  match parse image with
  | .error err =>
    { st with warnings := st.warnings ++ ["Couldn't parse image [" ++ image ++ "]: " ++ err] }
  | .ok parsed =>
    if parsed.Digest ≠ "" then
      { st with warnings :=
          st.warnings ++ ["Ignoring image referenced by digest: [" ++ image ++ "]"] }
    else
      { st with images := st.images ++ [parsed.BaseName] }

/-- The loop of `stripTags` run from `var images []string`, with its warnings. -/
def stripTagsRun (parse : ReferenceParser) (taggedImages : List String) : StripState :=
  taggedImages.foldl (stripTagsStep parse) ⟨[], []⟩

/-- The function `stripTags`: the slice it returns. -/
def stripTags (parse : ReferenceParser) (taggedImages : List String) : List String :=
  (stripTagsRun parse taggedImages).images

/-- The base name an input contributes: `none` for an input that fails to parse
or parses with a non-empty digest. -/
def keptBaseName (parse : ReferenceParser) (image : String) : Option String :=
  match parse image with
  | .error _ => none
  | .ok parsed => if parsed.Digest ≠ "" then none else some parsed.BaseName

/-! ## `matchBuildersToImages` -/

/-- The variables of the loop of `matchBuildersToImages`. -/
structure MatchState where
  pairs : List BuilderImagePair
  builders : List InitBuilder
  unresolvedImages : sortedSet

/-- One iteration of the loop of `matchBuildersToImages`; `none` when an index
or slice expression is out of range. -/
def matchStep (st : MatchState) (image : String) : Option MatchState :=
  let builderIdx := findExactlyOneMatchingBuilder st.builders image
  if builderIdx ≠ -1 then do
    let builder ← goIndex st.builders builderIdx
    let front ← goSliceTo st.builders builderIdx
    let back ← goSliceFrom st.builders (builderIdx + 1)
    some { st with
      pairs := st.pairs ++ [{ ImageName := image, Builder := builder }]
      builders := front ++ back }
  else
    some { st with unresolvedImages := st.unresolvedImages.add image }

/-- The function `matchBuildersToImages`: pairs, leftover builders and
unresolved images, or `none` if the run panics. -/
def matchBuildersToImages (parse : ReferenceParser) (builders : List InitBuilder)
    (images : List String) :
    Option (List BuilderImagePair × List InitBuilder × List String) := do
  let images := stripTags parse images
  let st ← images.foldlM matchStep ⟨[], builders, sortedSet.empty⟩
  some (st.pairs, st.builders, st.unresolvedImages.values)

/-! ## `Artifacts` -/

/-- The artifact that `Artifacts` builds for a pair before it hands it to the
builder: `ImageName` from the pair, `Workspace` set when the directory of the
builder's path is not `"."`. -/
def newArtifact (dir : String → String) (pair : BuilderImagePair) : Artifact :=
  let artifact : Artifact := { ImageName := pair.ImageName, Workspace := "", BuilderFields := [] }
  let workspace := dir pair.Builder.Path
  if workspace ≠ "." then { artifact with Workspace := workspace } else artifact

/-- The lines `Artifacts` prints for a pair. -/
def workspaceNotice (dir : String → String) (pair : BuilderImagePair) : List String :=
  let workspace := dir pair.Builder.Path
  if workspace ≠ "." then ["using non standard workspace: " ++ workspace ++ "\n"] else []

/-- The state of the loop of `Artifacts`: the slice `artifacts` and the text
written to standard output. -/
structure ArtifactsState where
  artifacts : List Artifact
  stdout : List String

/-- One iteration of the loop of `Artifacts`. -/
def ArtifactsStep (dir : String → String) (st : ArtifactsState) (pair : BuilderImagePair) :
    ArtifactsState :=
  let artifact := newArtifact dir pair
  let out := st.stdout ++ workspaceNotice dir pair
  let artifact := pair.Builder.UpdateArtifact artifact
  { artifacts := st.artifacts ++ [artifact], stdout := out }

/-- The loop of `Artifacts` run from `var artifacts []*latest.Artifact`. -/
def ArtifactsRun (dir : String → String) (pairs : List BuilderImagePair) : ArtifactsState :=
  pairs.foldl (ArtifactsStep dir) ⟨[], []⟩

/-- The function `Artifacts`: the slice it returns. -/
def Artifacts (dir : String → String) (pairs : List BuilderImagePair) : List Artifact :=
  (ArtifactsRun dir pairs).artifacts

/-! ## `filepath.Dir` on slash-separated paths -/

/-- The elements of a path between its separators. -/
def splitOnSlash : List Char → List (List Char)
  | [] => [[]]
  | c :: cs =>
    match splitOnSlash cs with
    | [] => [[]]
    | seg :: segs => if c = '/' then [] :: seg :: segs else (c :: seg) :: segs

/-- One element of `filepath.Clean`: `out` holds the elements written so far,
last first. Empty and `.` elements are dropped, `..` removes the previous
element when there is one to remove, is dropped at the root and is kept at the
front of a relative path. -/
def cleanStep (rooted : Bool) (out : List (List Char)) (seg : List Char) : List (List Char) :=
  if seg = [] ∨ seg = ['.'] then out
  else if seg = ['.', '.'] then
    match out with
    | top :: below => if top = ['.', '.'] then seg :: out else below
    | [] => if rooted then [] else [seg]
  else seg :: out

/-- The function `filepath.Clean` for slash-separated paths. -/
def filepathClean (path : List Char) : List Char :=
  let rooted := decide (path.head? = some '/')
  let out := (splitOnSlash path).foldl (cleanStep rooted) []
  let body := List.intercalate ['/'] out.reverse
  let cleaned := if rooted then '/' :: body else body
  if cleaned = [] then ['.'] else cleaned

/-- The function `filepath.Dir` for slash-separated paths: everything up to the
last separator, cleaned. -/
def filepathDir (path : String) : String :=
  String.mk (filepathClean ((path.toList.reverse.dropWhile (fun c => c ≠ '/')).reverse))

/-! ## Concrete inputs -/

/-- A small reference parser for concrete inputs: the base name is the text
before the first `:` or `@`, the digest the text after an `@`; the empty string
and a string holding a `\x7b` do not parse. -/
def sampleParse : ReferenceParser := fun image =>
  let cs := image.toList
  if cs = [] ∨ '\x7b' ∈ cs then .error "invalid reference format"
  else
    let base := cs.takeWhile (fun c => c ≠ ':' && c ≠ '@')
    let digest := (cs.dropWhile (fun c => c ≠ '@')).drop 1
    let tag := if '@' ∈ cs then [] else (cs.dropWhile (fun c => c ≠ ':')).drop 1
    .ok { BaseName := String.mk base, Tag := String.mk tag, Digest := String.mk digest }

/-- A builder with the given configured image and path whose `UpdateArtifact`
records its path among the builder fields. -/
def sampleBuilder (image path : String) : InitBuilder :=
  { ConfiguredImage := image
    Path := path
    UpdateArtifact := fun a => { a with BuilderFields := a.BuilderFields ++ [path] } }

/-! ## The one-shot description of the matcher -/

/-- Whether builder `b` of `bs` has been paired once the names `seen` have been
processed: its configured image is among them and no other builder shares it. -/
def consumed (bs : List InitBuilder) (seen : List String) (b : InitBuilder) : Bool :=
  decide (b.ConfiguredImage ∈ seen) && decide (matchCount bs b.ConfiguredImage = 1)

/-- Whether the name `x` is paired when it is met after the names `seen`. -/
def pairable (bs : List InitBuilder) (seen : List String) (x : String) : Bool :=
  decide (x ∉ seen) && decide (matchCount bs x = 1)

/-- The pairs formed for the names `todo` met after the names `seen`, computed
against the original builder list. -/
def refPairs (bs : List InitBuilder) : List String → List String → List BuilderImagePair
  | _, [] => []
  | seen, x :: rest =>
    (if pairable bs seen x then
      ((bs.find? (isFor x)).toList.map fun b => { ImageName := x, Builder := b })
    else []) ++ refPairs bs (x :: seen) rest

/-- The names reported unresolved, in the order in which they are met. -/
def refUnresolved (bs : List InitBuilder) : List String → List String → List String
  | _, [] => []
  | seen, x :: rest =>
    (if pairable bs seen x then [] else [x]) ++ refUnresolved bs (x :: seen) rest

/-- The builders of `bs` that are still in the pool once the names `seen` have
been processed. -/
def pool (bs : List InitBuilder) (seen : List String) : List InitBuilder :=
  bs.filter fun b => !consumed bs seen b

/-! ## The matcher as the claims word it -/

/-- The distinct names of a list, each at the place of its first occurrence. -/
def distinctNames : List String → List String
  | [] => []
  | x :: rest => x :: (distinctNames rest).filter fun y => decide (y ≠ x)

/-- The pair formed for a name against the original builder list: the builder
configured for it when exactly one is, nothing otherwise. -/
def oneShotPair (bs : List InitBuilder) (x : String) : Option BuilderImagePair :=
  if matchCount bs x = 1 then
    (bs.find? (isFor x)).map fun b => { ImageName := x, Builder := b }
  else none

/-- One pair for each distinct name with exactly one builder, ordered by first
occurrence of the name. -/
def oneShotPairs (bs : List InitBuilder) (ns : List String) : List BuilderImagePair :=
  (distinctNames ns).filterMap (oneShotPair bs)

/-- The builder list with the paired builders deleted: a builder is paired when
its configured image is among the names and no other builder shares it. -/
def oneShotLeftover (bs : List InitBuilder) (ns : List String) : List InitBuilder :=
  bs.filter fun b =>
    !(decide (b.ConfiguredImage ∈ ns) && decide (matchCount bs b.ConfiguredImage = 1))

/-- The sorted duplicate-free list of the names for which the number of
builders is not one, or which occur more than once. -/
def oneShotUnresolved (bs : List InitBuilder) (ns : List String) : List String :=
  ((ns.filter fun x => decide (matchCount bs x ≠ 1 ∨ 2 ≤ ns.count x)).dedup).insertionSort
    (fun a b => a.toList ≤ b.toList)

/-! ## `matchBuildersToImages` with the caller's backing array -/

/-- The call `append(front, back...)` when `front` is the slice `array[:len(front)]`
and the capacity suffices: the elements of `back` are copied into the array
right after `front`, and the rest of the array stays as it is. The value is the
array after the call. -/
def appendInPlace {α : Type} (array front back : List α) : List α :=
  front ++ back ++ array.drop (front.length + back.length)

/-- The variables of the loop of `matchBuildersToImages` when the slice
`builders` is kept as the backing array the caller passed (`array`, as long as
the caller's slice) and its current length (`len`): `builders` is
`array[:len]`. -/
structure InPlaceState where
  pairs : List BuilderImagePair
  array : List InitBuilder
  len : Nat
  unresolvedImages : sortedSet

/-- The slice `builders` of an `InPlaceState`. -/
def InPlaceState.builders (st : InPlaceState) : List InitBuilder :=
  st.array.take st.len

/-- One iteration of the loop of `matchBuildersToImages` on the backing array:
the removal `append(builders[:builderIdx], builders[builderIdx+1:]...)` writes
into the array. -/
def matchStepInPlace (st : InPlaceState) (image : String) : Option InPlaceState :=
  let builderIdx := findExactlyOneMatchingBuilder st.builders image
  if builderIdx ≠ -1 then do
    let builder ← goIndex st.builders builderIdx
    let front ← goSliceTo st.builders builderIdx
    let back ← goSliceFrom st.builders (builderIdx + 1)
    some { st with
      pairs := st.pairs ++ [{ ImageName := image, Builder := builder }]
      array := appendInPlace st.array front back
      len := front.length + back.length }
  else
    some { st with unresolvedImages := st.unresolvedImages.add image }

/-- The function `matchBuildersToImages` on the backing array: its three results
and the contents of the caller's slice after the call. -/
def matchBuildersToImagesInPlace (parse : ReferenceParser) (builders : List InitBuilder)
    (images : List String) :
    Option ((List BuilderImagePair × List InitBuilder × List String) × List InitBuilder) := do
  let images := stripTags parse images
  let st ← images.foldlM matchStepInPlace ⟨[], builders, builders.length, sortedSet.empty⟩
  some ((st.pairs, st.builders, st.unresolvedImages.values), st.array)

/-- The loop variables of the value-level matcher that an `InPlaceState` stands
for. -/
def InPlaceState.toMatchState (st : InPlaceState) : MatchState :=
  { pairs := st.pairs, builders := st.builders, unresolvedImages := st.unresolvedImages }

/-- The positions in `bs` of the builders paired for the names `ns`, in the
order of the pairs. -/
def pairedPositions (bs : List InitBuilder) (ns : List String) : List Nat :=
  ((refPairs bs [] ns).map fun p => p.ImageName).map fun n => bs.findIdx (isFor n)

/-! ## Properties of `findExactlyOneMatchingBuilder` -/

theorem isFor_iff (image : String) (b : InitBuilder) :
    isFor image b = true ↔ b.ConfiguredImage = image := by
  simp [isFor]

theorem findLoop_cons_ne (image : String) (b : InitBuilder) (rest : List InitBuilder) (i m : Int)
    (hb : isFor image b = false) :
    findLoop image (b :: rest) i m = findLoop image rest (i + 1) m := by
  have h : image ≠ b.ConfiguredImage := by
    intro e; simp [isFor, e] at hb
  simp [findLoop, h]

theorem findLoop_cons_eq (image : String) (b : InitBuilder) (rest : List InitBuilder) (i m : Int)
    (hb : isFor image b = true) :
    findLoop image (b :: rest) i m = if m ≠ -1 then -1 else findLoop image rest (i + 1) i := by
  have h : image = b.ConfiguredImage := ((isFor_iff image b).1 hb).symm
  simp only [findLoop]
  rw [if_neg (by simpa using h)]

theorem matchCount_cons (image : String) (b : InitBuilder) (rest : List InitBuilder) :
    matchCount (b :: rest) image = matchCount rest image + if isFor image b = true then 1 else 0 := by
  simp [matchCount, List.countP_cons]

theorem findLoop_of_found (image : String) (bs : List InitBuilder) (i m : Int) (hm : m ≠ -1) :
    findLoop image bs i m = if matchCount bs image = 0 then m else -1 := by
  induction bs generalizing i with
  | nil => simp [findLoop, matchCount]
  | cons b rest ih =>
    cases hb : isFor image b with
    | true =>
      rw [findLoop_cons_eq image b rest i m hb, matchCount_cons, if_pos hm]
      simp [hb]
    | false =>
      rw [findLoop_cons_ne image b rest i m hb, matchCount_cons, ih (i + 1)]
      simp [hb]

theorem findLoop_fresh (image : String) (bs : List InitBuilder) (i : Int) (hi : 0 ≤ i) :
    findLoop image bs i (-1) =
      if matchCount bs image = 1 then i + (bs.findIdx (isFor image) : Int) else -1 := by
  induction bs generalizing i with
  | nil => simp [findLoop, matchCount]
  | cons b rest ih =>
    cases hb : isFor image b with
    | true =>
      rw [findLoop_cons_eq image b rest i (-1) hb, matchCount_cons, if_neg (by simp),
        findLoop_of_found image rest (i + 1) i (by omega)]
      simp [hb, List.findIdx_cons]
    | false =>
      rw [findLoop_cons_ne image b rest i (-1) hb, matchCount_cons, ih (i + 1) (by omega)]
      simp only [hb, List.findIdx_cons, Bool.false_eq_true, if_false, add_zero, cond_false]
      split
      · push_cast; omega
      · rfl

theorem findExactlyOneMatchingBuilder_eq (bs : List InitBuilder) (image : String) :
    findExactlyOneMatchingBuilder bs image = findByCounting bs image := by
  simp [findExactlyOneMatchingBuilder, findByCounting, findLoop_fresh image bs 0 (le_refl 0)]


/-! ## Lists with exactly one match -/

theorem get?_findIdx_eq_find? {α : Type} (p : α → Bool) (l : List α) :
    l[l.findIdx p]? = l.find? p := by
  induction l with
  | nil => simp
  | cons a l ih =>
    cases h : p a with
    | true => simp [List.findIdx_cons, List.find?_cons, h]
    | false => simpa [List.findIdx_cons, List.find?_cons, h] using ih

theorem take_drop_findIdx_of_countP_one {α : Type} (p : α → Bool) (l : List α)
    (h : l.countP p = 1) :
    l.take (l.findIdx p) ++ l.drop (l.findIdx p + 1) = l.filter (fun a => !p a) := by
  induction l with
  | nil => simp at h
  | cons a l ih =>
    cases ha : p a with
    | true =>
      have h0 : l.countP p = 0 := by simpa [List.countP_cons, ha] using h
      have hall : ∀ b ∈ l, (!p b) = true := by
        intro b hb
        have := (List.countP_eq_zero.1 h0) b hb
        simpa using this
      simp [List.findIdx_cons, ha, List.filter_cons, List.filter_eq_self.2 hall]
    | false =>
      have h1 : l.countP p = 1 := by simpa [List.countP_cons, ha] using h
      simp [List.findIdx_cons, ha, List.filter_cons, ih h1]

theorem findIdx_lt_of_countP_one {α : Type} (p : α → Bool) (l : List α) (h : l.countP p = 1) :
    l.findIdx p < l.length := by
  apply List.findIdx_lt_length_of_exists
  have hpos : 0 < l.countP p := by omega
  obtain ⟨a, ha, hp⟩ := List.countP_pos_iff.1 hpos
  exact ⟨a, ha, hp⟩

theorem find?_isSome_of_countP_one {α : Type} (p : α → Bool) (l : List α) (h : l.countP p = 1) :
    ∃ a, l.find? p = some a := by
  have hpos : 0 < l.countP p := by omega
  obtain ⟨a, ha, hp⟩ := List.countP_pos_iff.1 hpos
  cases hf : l.find? p with
  | none => exact absurd hp (by simpa using (List.find?_eq_none.1 hf) a ha)
  | some b => exact ⟨b, rfl⟩

/-! ## One iteration of the matcher -/

/-- The pool after an iteration that pairs `x`, and the pair it adds. -/
theorem matchStep_eq (st : MatchState) (x : String) :
    matchStep st x = some
      (if matchCount st.builders x = 1 then
        { pairs := st.pairs ++
            ((st.builders.find? (isFor x)).toList.map fun b => { ImageName := x, Builder := b })
          builders := st.builders.filter (fun a => !isFor x a)
          unresolvedImages := st.unresolvedImages }
      else
        { pairs := st.pairs
          builders := st.builders
          unresolvedImages := st.unresolvedImages.add x }) := by
  unfold matchStep
  simp only [findExactlyOneMatchingBuilder_eq, findByCounting]
  by_cases h : matchCount st.builders x = 1
  · have hlt := findIdx_lt_of_countP_one (isFor x) st.builders h
    obtain ⟨b, hb⟩ := find?_isSome_of_countP_one (isFor x) st.builders h
    have hne : ((List.findIdx (isFor x) st.builders : Nat) : Int) ≠ -1 := by omega
    have hidx : goIndex st.builders (List.findIdx (isFor x) st.builders : Nat) = some b := by
      simp [goIndex, get?_findIdx_eq_find?, hb]
    have hto : goSliceTo st.builders (List.findIdx (isFor x) st.builders : Nat) =
        some (st.builders.take (List.findIdx (isFor x) st.builders)) := by
      simp [goSliceTo]; omega
    have hfrom : goSliceFrom st.builders ((List.findIdx (isFor x) st.builders : Nat) + 1) =
        some (st.builders.drop (List.findIdx (isFor x) st.builders + 1)) := by
      have e : ((List.findIdx (isFor x) st.builders : Nat) : Int) + 1 =
          ((List.findIdx (isFor x) st.builders + 1 : Nat) : Int) := by push_cast; rfl
      rw [e]
      simp only [goSliceFrom, Int.toNat_ofNat]
      rw [if_pos]
      constructor
      · omega
      · exact_mod_cast hlt
    rw [if_pos h, if_pos hne, if_pos h, hidx, hto, hfrom]
    simp [hb, take_drop_findIdx_of_countP_one (isFor x) st.builders h]
  · simp [h]


/-! ## The pool against the original builder list -/

theorem consumed_of_isFor (bs : List InitBuilder) (seen : List String) (x : String)
    (b : InitBuilder) (hb : isFor x b = true) :
    consumed bs seen b = (decide (x ∈ seen) && decide (matchCount bs x = 1)) := by
  have e : b.ConfiguredImage = x := (isFor_iff x b).1 hb
  simp [consumed, e]

theorem matchCount_pool (bs : List InitBuilder) (seen : List String) (x : String) :
    matchCount (pool bs seen) x =
      if x ∈ seen ∧ matchCount bs x = 1 then 0 else matchCount bs x := by
  unfold pool
  rw [matchCount, List.countP_filter]
  split
  · rename_i h
    rw [List.countP_eq_zero]
    intro b _
    cases hb : isFor x b with
    | false => simp
    | true => simp [consumed_of_isFor bs seen x b hb, h.1, h.2]
  · rename_i h
    rw [matchCount]
    apply List.countP_congr
    intro b _
    cases hb : isFor x b with
    | false => simp
    | true =>
      have hc : consumed bs seen b = false := by
        rw [consumed_of_isFor bs seen x b hb]
        simpa using h
      simp [hc]

theorem matchCount_pool_eq_one (bs : List InitBuilder) (seen : List String) (x : String) :
    matchCount (pool bs seen) x = 1 ↔ pairable bs seen x = true := by
  rw [matchCount_pool]
  by_cases h1 : matchCount bs x = 1 <;> by_cases h2 : x ∈ seen <;> simp [pairable, h1, h2]

theorem find?_filter_of_imp {α : Type} (p q : α → Bool) (l : List α)
    (h : ∀ a ∈ l, p a = true → q a = true) : (l.filter q).find? p = l.find? p := by
  induction l with
  | nil => rfl
  | cons a l ih =>
    have ih' := ih fun b hb => h b (List.mem_cons_of_mem a hb)
    cases hq : q a with
    | true => simp [List.filter_cons, hq, List.find?_cons, ih']
    | false =>
      have hp : p a = false := by
        cases hp : p a with
        | false => rfl
        | true => simp [h a (List.mem_cons_self a l) hp] at hq
      simp [List.filter_cons, hq, List.find?_cons, hp, ih']

theorem find?_pool (bs : List InitBuilder) (seen : List String) (x : String)
    (hx : x ∉ seen) : (pool bs seen).find? (isFor x) = bs.find? (isFor x) := by
  unfold pool
  apply find?_filter_of_imp
  intro b _ hb
  simp [consumed_of_isFor bs seen x b hb, hx]

theorem pool_cons_of_pairable (bs : List InitBuilder) (seen : List String) (x : String)
    (h : pairable bs seen x = true) :
    (pool bs seen).filter (fun a => !isFor x a) = pool bs (x :: seen) := by
  have h1 : matchCount bs x = 1 := by simp [pairable] at h; exact h.2
  unfold pool
  rw [List.filter_filter]
  apply List.filter_congr
  intro b _
  cases hb : isFor x b with
  | true => simp [consumed_of_isFor bs (x :: seen) x b hb, h1]
  | false =>
    have hne : ¬ b.ConfiguredImage = x := by
      intro e; simp [isFor, e] at hb
    simp [consumed, hne]

theorem pool_cons_of_not_pairable (bs : List InitBuilder) (seen : List String) (x : String)
    (h : pairable bs seen x = false) :
    pool bs seen = pool bs (x :: seen) := by
  unfold pool
  apply List.filter_congr
  intro b _
  cases hb : isFor x b with
  | true =>
    rw [consumed_of_isFor bs (x :: seen) x b hb, consumed_of_isFor bs seen x b hb]
    by_cases h1 : matchCount bs x = 1 <;> by_cases h2 : x ∈ seen <;> simp_all [pairable]
  | false =>
    have hne : ¬ b.ConfiguredImage = x := by
      intro e; simp [isFor, e] at hb
    simp [consumed, hne]

theorem pool_congr (bs : List InitBuilder) (s t : List String) (h : ∀ x, x ∈ s ↔ x ∈ t) :
    pool bs s = pool bs t := by
  unfold pool
  apply List.filter_congr
  intro b _
  simp [consumed, h]

theorem pool_nil (bs : List InitBuilder) : pool bs [] = bs := by
  unfold pool
  apply List.filter_eq_self.2
  intro b _
  simp [consumed]

/-! ## The loop of the matcher -/

theorem foldlM_matchStep (bs : List InitBuilder) (rest seen : List String)
    (pairs : List BuilderImagePair) (un : sortedSet) :
    rest.foldlM matchStep ⟨pairs, pool bs seen, un⟩ = some
      { pairs := pairs ++ refPairs bs seen rest
        builders := pool bs (rest.reverse ++ seen)
        unresolvedImages := (refUnresolved bs seen rest).foldl sortedSet.add un } := by
  induction rest generalizing seen pairs un with
  | nil => simp [refPairs, refUnresolved]
  | cons x rest ih =>
    rw [List.foldlM_cons, matchStep_eq]
    simp only [Option.some_bind, Option.bind_eq_bind, matchCount_pool_eq_one]
    cases h : pairable bs seen x with
    | true =>
      simp only [if_true]
      rw [find?_pool bs seen x (by simpa [pairable] using (And.left (by simpa [pairable] using h))),
        pool_cons_of_pairable bs seen x h, ih]
      simp [refPairs, refUnresolved, h]
    | false =>
      simp only [Bool.false_eq_true, if_false]
      rw [pool_cons_of_not_pairable bs seen x h, ih]
      simp [refPairs, refUnresolved, h]

theorem matchBuildersToImages_eq (parse : ReferenceParser) (bs : List InitBuilder)
    (images : List String) :
    matchBuildersToImages parse bs images = some
      (refPairs bs [] (stripTags parse images),
       pool bs (stripTags parse images),
       ((refUnresolved bs [] (stripTags parse images)).foldl sortedSet.add sortedSet.empty).values) := by
  unfold matchBuildersToImages
  have h := foldlM_matchStep bs (stripTags parse images) [] [] sortedSet.empty
  rw [pool_nil] at h
  simp only [Option.bind_eq_bind, h, Option.some_bind, List.nil_append, List.append_nil]
  rw [pool_congr bs (stripTags parse images).reverse (stripTags parse images) (by simp)]


/-! ## The pairs and the unresolved names of the one-shot description -/

theorem pairable_cons (bs : List InitBuilder) (seen : List String) (x y : String) :
    pairable bs (x :: seen) y = (decide (y ≠ x) && pairable bs seen y) := by
  by_cases h1 : y = x <;> by_cases h2 : y ∈ seen <;> simp [pairable, h1, h2]

theorem mem_refPairs (bs : List InitBuilder) (seen l : List String) (p : BuilderImagePair) :
    p ∈ refPairs bs seen l ↔
      p.ImageName ∈ l ∧ pairable bs seen p.ImageName = true ∧
        bs.find? (isFor p.ImageName) = some p.Builder := by
  induction l generalizing seen with
  | nil => simp [refPairs]
  | cons x rest ih =>
    rw [refPairs, List.mem_append, ih, pairable_cons]
    obtain ⟨n, b⟩ := p
    by_cases hx : n = x
    · subst hx
      cases hp : pairable bs seen n <;> simp [hp, eq_comm]
    · have hx' : ¬ x = n := fun e => hx e.symm
      cases hp : pairable bs seen x <;> simp [hx, hx']

theorem filter_refPairs (bs : List InitBuilder) (seen l : List String) (X : String) :
    (refPairs bs seen l).filter (fun p => decide (p.ImageName = X)) =
      if X ∈ l ∧ pairable bs seen X = true then
        ((bs.find? (isFor X)).toList.map fun b => { ImageName := X, Builder := b })
      else [] := by
  induction l generalizing seen with
  | nil => simp [refPairs]
  | cons x rest ih =>
    rw [refPairs, List.filter_append, ih, pairable_cons]
    by_cases hx : X = x
    · subst hx
      cases hp : pairable bs seen X with
      | false => simp
      | true =>
        cases hf : bs.find? (isFor X) <;> simp
    · have hx' : ¬ x = X := fun e => hx e.symm
      cases hp : pairable bs seen x with
      | false => simp [hx]
      | true =>
        cases hf : bs.find? (isFor x) <;> simp [hx, hx']

theorem refPairs_names_sublist (bs : List InitBuilder) (seen l : List String) :
    List.Sublist ((refPairs bs seen l).map fun p => p.ImageName) l := by
  induction l generalizing seen with
  | nil => simp [refPairs]
  | cons x rest ih =>
    rw [refPairs, List.map_append]
    cases hp : pairable bs seen x with
    | false => simpa using (ih (x :: seen)).cons x
    | true =>
      cases hf : bs.find? (isFor x) with
      | none => simpa using (ih (x :: seen)).cons x
      | some b => simpa using (ih (x :: seen)).cons₂ x

theorem refPairs_names_nodup (bs : List InitBuilder) (seen l : List String) :
    ((refPairs bs seen l).map fun p => p.ImageName).Nodup := by
  induction l generalizing seen with
  | nil => simp [refPairs]
  | cons x rest ih =>
    rw [refPairs, List.map_append, List.nodup_append]
    refine ⟨?_, ih (x :: seen), ?_⟩
    · cases hp : pairable bs seen x with
      | false => simp
      | true => cases hf : bs.find? (isFor x) <;> simp
    · intro n hn hn'
      obtain ⟨p, hp, rfl⟩ := List.mem_map.1 hn'
      have hpair := ((mem_refPairs bs (x :: seen) rest p).1 hp).2.1
      rw [pairable_cons] at hpair
      have hne : p.ImageName ≠ x := by
        simp only [Bool.and_eq_true, decide_eq_true_eq] at hpair
        exact hpair.1
      have hx : p.ImageName = x := by
        cases hq : pairable bs seen x with
        | false => simp [hq] at hn
        | true =>
          cases hf : bs.find? (isFor x) with
          | none => simp [hq, hf] at hn
          | some b => simpa [hq, hf] using hn
      exact hne hx

theorem mem_refUnresolved (bs : List InitBuilder) (seen l : List String) (X : String) :
    X ∈ refUnresolved bs seen l ↔ X ∈ l ∧ (pairable bs seen X = false ∨ 2 ≤ l.count X) := by
  induction l generalizing seen with
  | nil => simp [refUnresolved]
  | cons x rest ih =>
    rw [refUnresolved, List.mem_append, ih, pairable_cons]
    by_cases hx : X = x
    · subst hx
      have hc : 2 ≤ List.count X (X :: rest) ↔ X ∈ rest := by
        rw [List.count_cons_self, ← List.count_pos_iff]; omega
      rw [hc]
      cases hp : pairable bs seen X <;> simp
    · have hx' : ¬ x = X := fun e => hx e.symm
      have hc : List.count X (x :: rest) = List.count X rest := by
        rw [List.count_cons_of_ne hx]
      rw [hc]
      cases hp : pairable bs seen x <;> simp [hx]

theorem find?_eq_of_countP_one {α : Type} (p : α → Bool) (l : List α) (a : α)
    (h : l.countP p = 1) (ha : a ∈ l) (hp : p a = true) : l.find? p = some a := by
  induction l with
  | nil => simp at ha
  | cons c l ih =>
    cases hc : p c with
    | true =>
      have h0 : l.countP p = 0 := by simpa [List.countP_cons, hc] using h
      rcases List.mem_cons.1 ha with e | hmem
      · simp [List.find?_cons, hc, e]
      · have := (List.countP_eq_zero.1 h0) a hmem
        simp [hp] at this
    | false =>
      have h1 : l.countP p = 1 := by simpa [List.countP_cons, hc] using h
      rcases List.mem_cons.1 ha with e | hmem
      · rw [e] at hp; simp [hp] at hc
      · simpa [List.find?_cons, hc] using ih h1 hmem

/-! ## The `sortedSet` of unresolved names -/

theorem sortedSet.mem_values (s : sortedSet) (X : String) : X ∈ s.values ↔ X ∈ s.elems := by
  unfold sortedSet.values
  exact (List.perm_insertionSort _ _).mem_iff

theorem sortedSet.mem_add (s : sortedSet) (v X : String) :
    X ∈ (s.add v).elems ↔ X = v ∨ X ∈ s.elems := by
  unfold sortedSet.add
  split
  · rename_i h
    constructor
    · exact Or.inr
    · rintro (e | h')
      · exact e ▸ h
      · exact h'
  · simp

theorem sortedSet.mem_foldl_add (l : List String) (s : sortedSet) (X : String) :
    X ∈ (l.foldl sortedSet.add s).elems ↔ X ∈ l ∨ X ∈ s.elems := by
  induction l generalizing s with
  | nil => simp
  | cons v l ih =>
    rw [List.foldl_cons, ih, sortedSet.mem_add, List.mem_cons]
    tauto

theorem sortedSet.nodup_add (s : sortedSet) (v : String) (h : s.elems.Nodup) :
    (s.add v).elems.Nodup := by
  unfold sortedSet.add
  split
  · exact h
  · rename_i hv
    exact List.nodup_cons.2 ⟨hv, h⟩

theorem sortedSet.nodup_foldl_add (l : List String) (s : sortedSet) (h : s.elems.Nodup) :
    (l.foldl sortedSet.add s).elems.Nodup := by
  induction l generalizing s with
  | nil => simpa using h
  | cons v l ih =>
    rw [List.foldl_cons]
    exact ih _ (sortedSet.nodup_add s v h)

theorem mem_unresolved (bs : List InitBuilder) (ns : List String) (X : String) :
    X ∈ ((refUnresolved bs [] ns).foldl sortedSet.add sortedSet.empty).values ↔
      X ∈ ns ∧ (matchCount bs X ≠ 1 ∨ 2 ≤ ns.count X) := by
  rw [sortedSet.mem_values, sortedSet.mem_foldl_add, mem_refUnresolved]
  simp [sortedSet.empty, pairable]


theorem idx_eq_findIdx_of_countP_one {α : Type} (p : α → Bool) (l : List α)
    (h : l.countP p = 1) (m : Nat) (a : α) (hm : l[m]? = some a) (hp : p a = true) :
    m = l.findIdx p := by
  induction l generalizing m with
  | nil => simp at hm
  | cons c l ih =>
    cases hc : p c with
    | true =>
      have h0 : l.countP p = 0 := by simpa [List.countP_cons, hc] using h
      cases m with
      | zero => simp [List.findIdx_cons, hc]
      | succ m =>
        have hmem : a ∈ l := List.getElem?_mem (by simpa using hm)
        have := (List.countP_eq_zero.1 h0) a hmem
        simp [hp] at this
    | false =>
      have h1 : l.countP p = 1 := by simpa [List.countP_cons, hc] using h
      cases m with
      | zero =>
        have e : c = a := by simpa using hm
        rw [e] at hc; simp [hp] at hc
      | succ m =>
        have := ih h1 m (by simpa using hm)
        simp [List.findIdx_cons, hc, this]

theorem pool_filter_isFor (bs : List InitBuilder) (seen : List String) (X : String)
    (h : matchCount bs X ≠ 1) : (pool bs seen).filter (isFor X) = bs.filter (isFor X) := by
  unfold pool
  rw [List.filter_filter]
  apply List.filter_congr
  intro b _
  cases hb : isFor X b with
  | false => simp
  | true => simp [consumed_of_isFor bs seen X b hb, h]

/-! ## The loops of `stripTags` and `Artifacts` -/

theorem stripTagsStep_images (parse : ReferenceParser) (st : StripState) (image : String) :
    (stripTagsStep parse st image).images = st.images ++ (keptBaseName parse image).toList := by
  unfold stripTagsStep keptBaseName
  cases parse image with
  | error e => simp
  | ok r =>
    by_cases h : r.Digest = "" <;> simp [h]

theorem foldl_stripTagsStep_images (parse : ReferenceParser) (l : List String) (st : StripState) :
    (l.foldl (stripTagsStep parse) st).images = st.images ++ l.filterMap (keptBaseName parse) := by
  induction l generalizing st with
  | nil => simp
  | cons x l ih =>
    rw [List.foldl_cons, ih, stripTagsStep_images, List.filterMap_cons]
    cases keptBaseName parse x <;> simp

theorem stripTags_eq_filterMap (parse : ReferenceParser) (l : List String) :
    stripTags parse l = l.filterMap (keptBaseName parse) := by
  simp [stripTags, stripTagsRun, foldl_stripTagsStep_images]

theorem count_filterMap_eq_countP {α β : Type} [DecidableEq β] (f : α → Option β) (l : List α)
    (b : β) : (l.filterMap f).count b = l.countP (fun a => decide (f a = some b)) := by
  induction l with
  | nil => simp
  | cons a l ih =>
    rw [List.filterMap_cons, List.countP_cons]
    cases h : f a with
    | none => simp [ih]
    | some c =>
      by_cases hc : c = b
      · simp [ih, hc]
      · have hc' : ¬ b = c := fun e => hc e.symm
        simp [ih, hc, List.count_cons, hc']

theorem foldl_ArtifactsStep_artifacts (dir : String → String) (l : List BuilderImagePair)
    (st : ArtifactsState) :
    (l.foldl (ArtifactsStep dir) st).artifacts =
      st.artifacts ++ l.map fun p => p.Builder.UpdateArtifact (newArtifact dir p) := by
  induction l generalizing st with
  | nil => simp
  | cons x l ih => simp [List.foldl_cons, ih, ArtifactsStep]

theorem Artifacts_eq_map (dir : String → String) (l : List BuilderImagePair) :
    Artifacts dir l = l.map fun p => p.Builder.UpdateArtifact (newArtifact dir p) := by
  simp [Artifacts, ArtifactsRun, foldl_ArtifactsStep_artifacts]

theorem sortedSet.values_sorted (s : sortedSet) : List.Sorted (· ≤ ·) s.values := by
  unfold sortedSet.values
  haveI : IsTotal String (fun a b => a.toList ≤ b.toList) :=
    ⟨fun a b => by
      rcases le_total a b with h | h
      · exact Or.inl (String.le_iff_toList_le.1 h)
      · exact Or.inr (String.le_iff_toList_le.1 h)⟩
  haveI : IsTrans String (fun a b => a.toList ≤ b.toList) :=
    ⟨fun a b c hab hbc =>
      String.le_iff_toList_le.1
        (le_trans (String.le_iff_toList_le.2 hab) (String.le_iff_toList_le.2 hbc))⟩
  have h := List.sorted_insertionSort (fun a b : String => a.toList ≤ b.toList) s.elems
  exact List.Pairwise.imp (fun hab => String.le_iff_toList_le.2 hab) h

theorem sortedSet.values_nodup (s : sortedSet) (h : s.elems.Nodup) : s.values.Nodup := by
  unfold sortedSet.values
  exact (List.perm_insertionSort _ _).nodup_iff.2 h

/-! ## The one-shot description in the words of the claims -/

theorem mem_distinctNames (l : List String) (x : String) : x ∈ distinctNames l ↔ x ∈ l := by
  induction l with
  | nil => simp [distinctNames]
  | cons y l ih =>
    by_cases h : x = y
    · simp [distinctNames, h]
    · simp [distinctNames, h, ih]

theorem nodup_distinctNames (l : List String) : (distinctNames l).Nodup := by
  induction l with
  | nil => simp [distinctNames]
  | cons y l ih =>
    rw [distinctNames, List.nodup_cons]
    exact ⟨by simp, ih.filter _⟩

theorem distinctNames_perm (l₁ l₂ : List String) (h : l₁.Perm l₂) :
    (distinctNames l₁).Perm (distinctNames l₂) := by
  rw [List.perm_ext_iff_of_nodup (nodup_distinctNames l₁) (nodup_distinctNames l₂)]
  intro x
  rw [mem_distinctNames, mem_distinctNames, h.mem_iff]

theorem refPairs_eq_filterMap (bs : List InitBuilder) (seen l : List String) :
    refPairs bs seen l =
      ((distinctNames l).filter fun x => decide (x ∉ seen)).filterMap (oneShotPair bs) := by
  induction l generalizing seen with
  | nil => simp [refPairs, distinctNames]
  | cons x rest ih =>
    rw [refPairs, ih, distinctNames, List.filter_cons, List.filter_filter]
    have hf : (distinctNames rest).filter (fun y => decide (y ∉ x :: seen)) =
        (distinctNames rest).filter (fun y => decide (y ∉ seen) && decide (y ≠ x)) := by
      apply List.filter_congr
      intro y _
      by_cases h1 : y = x <;> by_cases h2 : y ∈ seen <;> simp [h1, h2]
    rw [hf]
    by_cases hx : x ∈ seen
    · simp [pairable, hx]
    · by_cases hc : matchCount bs x = 1
      · cases hfind : bs.find? (isFor x) <;>
          simp [pairable, hx, hc, oneShotPair, hfind, List.filterMap_cons]
      · simp [pairable, hx, hc, oneShotPair, List.filterMap_cons]

theorem refPairs_eq_oneShotPairs (bs : List InitBuilder) (ns : List String) :
    refPairs bs [] ns = oneShotPairs bs ns := by
  rw [refPairs_eq_filterMap, oneShotPairs]
  simp

theorem pool_eq_oneShotLeftover (bs : List InitBuilder) (ns : List String) :
    pool bs ns = oneShotLeftover bs ns := rfl

theorem toList_le_antisymm (a b : String) (hab : a.toList ≤ b.toList) (hba : b.toList ≤ a.toList) :
    a = b :=
  le_antisymm (String.le_iff_toList_le.2 hab) (String.le_iff_toList_le.2 hba)

theorem sorted_toList_le_insertionSort (l : List String) :
    List.Sorted (· ≤ ·) (l.insertionSort (fun a b => a.toList ≤ b.toList)) :=
  sortedSet.values_sorted ⟨l⟩

theorem eq_of_sorted_of_mem_iff (l₁ l₂ : List String) (s₁ : List.Sorted (· ≤ ·) l₁)
    (s₂ : List.Sorted (· ≤ ·) l₂) (n₁ : l₁.Nodup) (n₂ : l₂.Nodup)
    (h : ∀ x, x ∈ l₁ ↔ x ∈ l₂) : l₁ = l₂ :=
  List.eq_of_perm_of_sorted ((List.perm_ext_iff_of_nodup n₁ n₂).2 h) s₁ s₂

theorem unresolved_nodup (bs : List InitBuilder) (ns : List String) :
    ((refUnresolved bs [] ns).foldl sortedSet.add sortedSet.empty).values.Nodup :=
  sortedSet.values_nodup _
    (sortedSet.nodup_foldl_add (refUnresolved bs [] ns) sortedSet.empty (by simp [sortedSet.empty]))

theorem mem_oneShotUnresolved (bs : List InitBuilder) (ns : List String) (x : String) :
    x ∈ oneShotUnresolved bs ns ↔ x ∈ ns ∧ (matchCount bs x ≠ 1 ∨ 2 ≤ ns.count x) := by
  unfold oneShotUnresolved
  rw [(List.perm_insertionSort _ _).mem_iff, List.mem_dedup, List.mem_filter]
  simp

theorem unresolved_eq_oneShotUnresolved (bs : List InitBuilder) (ns : List String) :
    ((refUnresolved bs [] ns).foldl sortedSet.add sortedSet.empty).values =
      oneShotUnresolved bs ns := by
  apply eq_of_sorted_of_mem_iff
  · exact sortedSet.values_sorted _
  · exact sorted_toList_le_insertionSort _
  · exact unresolved_nodup bs ns
  · exact (List.perm_insertionSort _ _).nodup_iff.2 (List.nodup_dedup _)
  · intro x
    rw [mem_unresolved, mem_oneShotUnresolved]

theorem matchBuildersToImages_eq_oneShot (parse : ReferenceParser) (bs : List InitBuilder)
    (images : List String) :
    matchBuildersToImages parse bs images = some
      (oneShotPairs bs (stripTags parse images),
       oneShotLeftover bs (stripTags parse images),
       oneShotUnresolved bs (stripTags parse images)) := by
  rw [matchBuildersToImages_eq, refPairs_eq_oneShotPairs, pool_eq_oneShotLeftover,
    unresolved_eq_oneShotUnresolved]

theorem mem_pair_names (bs : List InitBuilder) (ns : List String) (x : String) :
    x ∈ (refPairs bs [] ns).map (fun p => p.ImageName) ↔ x ∈ ns ∧ matchCount bs x = 1 := by
  rw [List.mem_map]
  constructor
  · rintro ⟨p, hp, rfl⟩
    obtain ⟨hmem, hpair, _⟩ := (mem_refPairs bs [] ns p).1 hp
    exact ⟨hmem, by simpa [pairable] using hpair⟩
  · rintro ⟨hmem, hc⟩
    obtain ⟨b, hb⟩ := find?_isSome_of_countP_one (isFor x) bs hc
    exact ⟨⟨x, b⟩, (mem_refPairs bs [] ns ⟨x, b⟩).2 ⟨hmem, by simp [pairable, hc], hb⟩, rfl⟩

/-! ## The matcher on the backing array -/

theorem matchStepInPlace_eq (st : InPlaceState) (x : String) :
    matchStepInPlace st x = some
      (if matchCount st.builders x = 1 then
        { pairs := st.pairs ++
            ((st.builders.find? (isFor x)).toList.map fun b => { ImageName := x, Builder := b })
          array := appendInPlace st.array (st.builders.take (st.builders.findIdx (isFor x)))
            (st.builders.drop (st.builders.findIdx (isFor x) + 1))
          len := (st.builders.take (st.builders.findIdx (isFor x))).length +
            (st.builders.drop (st.builders.findIdx (isFor x) + 1)).length
          unresolvedImages := st.unresolvedImages }
      else
        { pairs := st.pairs
          array := st.array
          len := st.len
          unresolvedImages := st.unresolvedImages.add x }) := by
  unfold matchStepInPlace
  simp only [findExactlyOneMatchingBuilder_eq, findByCounting]
  by_cases h : matchCount st.builders x = 1
  · have hlt := findIdx_lt_of_countP_one (isFor x) st.builders h
    obtain ⟨b, hb⟩ := find?_isSome_of_countP_one (isFor x) st.builders h
    have hne : ((List.findIdx (isFor x) st.builders : Nat) : Int) ≠ -1 := by omega
    have hidx : goIndex st.builders (List.findIdx (isFor x) st.builders : Nat) = some b := by
      simp [goIndex, get?_findIdx_eq_find?, hb]
    have hto : goSliceTo st.builders (List.findIdx (isFor x) st.builders : Nat) =
        some (st.builders.take (List.findIdx (isFor x) st.builders)) := by
      simp [goSliceTo]; omega
    have hfrom : goSliceFrom st.builders ((List.findIdx (isFor x) st.builders : Nat) + 1) =
        some (st.builders.drop (List.findIdx (isFor x) st.builders + 1)) := by
      have e : ((List.findIdx (isFor x) st.builders : Nat) : Int) + 1 =
          ((List.findIdx (isFor x) st.builders + 1 : Nat) : Int) := by push_cast; rfl
      rw [e]
      simp only [goSliceFrom, Int.toNat_ofNat]
      rw [if_pos]
      constructor
      · omega
      · exact_mod_cast hlt
    rw [if_pos h, if_pos hne, if_pos h, hidx, hto, hfrom]
    simp [hb]
  · simp [h]

/-- One iteration on the backing array does what the value-level iteration
does, keeps the length of the array, and leaves the array alone when no pair is
added. -/
theorem length_appendInPlace {α : Type} (array front back : List α)
    (h : front.length + back.length ≤ array.length) :
    (appendInPlace array front back).length = array.length := by
  simp only [appendInPlace, List.length_append, List.length_drop]
  omega

theorem take_appendInPlace {α : Type} (array front back : List α) :
    (appendInPlace array front back).take (front.length + back.length) = front ++ back := by
  unfold appendInPlace
  rw [List.take_left']
  simp

theorem matchStepInPlace_refines (st : InPlaceState) (x : String)
    (hlen : st.len ≤ st.array.length) :
    ∃ st', matchStepInPlace st x = some st' ∧
      matchStep st.toMatchState x = some st'.toMatchState ∧
      st'.array.length = st.array.length ∧ st'.len ≤ st'.array.length ∧
      st.pairs.length ≤ st'.pairs.length ∧
      (st'.pairs.length = st.pairs.length → st'.array = st.array ∧ st'.len = st.len) := by
  refine ⟨_, matchStepInPlace_eq st x, ?_⟩
  rw [matchStep_eq]
  have hbl : st.builders.length = st.len := by
    simp [InPlaceState.builders, hlen]
  have hst : st.toMatchState.builders = st.builders := rfl
  rw [hst]
  by_cases h : matchCount st.builders x = 1
  · have hlt := findIdx_lt_of_countP_one (isFor x) st.builders h
    obtain ⟨b, hb⟩ := find?_isSome_of_countP_one (isFor x) st.builders h
    have hfd := take_drop_findIdx_of_countP_one (isFor x) st.builders h
    have hcnt : (st.builders.take (st.builders.findIdx (isFor x))).length +
        (st.builders.drop (st.builders.findIdx (isFor x) + 1)).length ≤ st.array.length := by
      rw [List.length_take, List.length_drop]; omega
    rw [if_pos h, if_pos h]
    refine ⟨?_, ?_, ?_, ?_, ?_⟩
    · show some _ = some (MatchState.mk _ (List.take _ _) _)
      rw [take_appendInPlace, hfd]
      rfl
    · exact length_appendInPlace _ _ _ hcnt
    · show _ ≤ (appendInPlace _ _ _).length
      rw [length_appendInPlace _ _ _ hcnt]
      exact hcnt
    · show _ ≤ List.length (_ ++ _)
      rw [List.length_append]
      omega
    · intro hp
      exfalso
      have : (st.pairs ++ ((st.builders.find? (isFor x)).toList.map fun b =>
          ({ ImageName := x, Builder := b } : BuilderImagePair))).length =
          st.pairs.length + 1 := by
        rw [hb]; simp
      have hp' : (st.pairs ++ ((st.builders.find? (isFor x)).toList.map fun b =>
          ({ ImageName := x, Builder := b } : BuilderImagePair))).length = st.pairs.length := hp
      omega
  · rw [if_neg h, if_neg h]
    exact ⟨rfl, rfl, hlen, le_refl _, fun _ => ⟨rfl, rfl⟩⟩

theorem foldlM_matchStepInPlace_refines (l : List String) (st : InPlaceState)
    (hlen : st.len ≤ st.array.length) :
    ∃ st', l.foldlM matchStepInPlace st = some st' ∧
      l.foldlM matchStep st.toMatchState = some st'.toMatchState ∧
      st'.array.length = st.array.length ∧ st'.len ≤ st'.array.length ∧
      st.pairs.length ≤ st'.pairs.length ∧
      (st'.pairs.length = st.pairs.length → st'.array = st.array ∧ st'.len = st.len) := by
  induction l generalizing st with
  | nil => exact ⟨st, rfl, rfl, rfl, hlen, le_refl _, fun _ => ⟨rfl, rfl⟩⟩
  | cons x l ih =>
    obtain ⟨st1, h1, h2, h3, h4, h5, h6⟩ := matchStepInPlace_refines st x hlen
    obtain ⟨st2, k1, k2, k3, k4, k5, k6⟩ := ih st1 h4
    refine ⟨st2, ?_, ?_, k3.trans h3, k4, h5.trans k5, ?_⟩
    · rw [List.foldlM_cons, h1]; exact k1
    · rw [List.foldlM_cons, h2]; exact k2
    · intro hp
      have e1 : st1.pairs.length = st.pairs.length := by omega
      have e2 : st2.pairs.length = st1.pairs.length := by omega
      obtain ⟨a1, l1⟩ := h6 e1
      obtain ⟨a2, l2⟩ := k6 e2
      exact ⟨a2.trans a1, l2.trans l1⟩

/-! ## The caller's array after a run -/

theorem mem_of_mem_appendInPlace {α : Type} (array front back : List α)
    (hf : ∀ a ∈ front, a ∈ array) (hb : ∀ a ∈ back, a ∈ array) (a : α)
    (ha : a ∈ appendInPlace array front back) : a ∈ array := by
  unfold appendInPlace at ha
  rcases List.mem_append.1 ha with h | h
  · rcases List.mem_append.1 h with h | h
    · exact hf a h
    · exact hb a h
  · exact List.mem_of_mem_drop h

theorem matchCount_eq_zero_of_subset (l₁ l₂ : List InitBuilder) (x : String)
    (hsub : ∀ a ∈ l₁, a ∈ l₂) (h : matchCount l₂ x = 0) : matchCount l₁ x = 0 := by
  unfold matchCount at h ⊢
  rw [List.countP_eq_zero] at h ⊢
  exact fun a ha => h a (hsub a ha)

/-- Removing the only builder for `x` from the pool `array[:len]` of an array
in which it is the only builder for `x`: either the array is left as it was, or
no builder for `x` is left in it. -/
theorem appendInPlace_unique (array : List InitBuilder) (len : Nat) (x : String)
    (hlen : len ≤ array.length) (hpool : matchCount (array.take len) x = 1)
    (hall : matchCount array x = 1) :
    appendInPlace array
        ((array.take len).take ((array.take len).findIdx (isFor x)))
        ((array.take len).drop ((array.take len).findIdx (isFor x) + 1)) = array ∨
    matchCount
      (appendInPlace array
        ((array.take len).take ((array.take len).findIdx (isFor x)))
        ((array.take len).drop ((array.take len).findIdx (isFor x) + 1))) x = 0 := by
  have hplen : (array.take len).length = len := by simp [hlen]
  have hlt := findIdx_lt_of_countP_one (isFor x) (array.take len) hpool
  rw [hplen] at hlt
  have hfd := take_drop_findIdx_of_countP_one (isFor x) (array.take len) hpool
  have hsum : ((array.take len).take ((array.take len).findIdx (isFor x))).length +
      ((array.take len).drop ((array.take len).findIdx (isFor x) + 1)).length = len - 1 := by
    rw [List.length_take, List.length_drop, hplen]; omega
  have hsplit : matchCount (array.take (len - 1)) x + matchCount (array.drop (len - 1)) x = 1 := by
    rw [← hall]
    unfold matchCount
    rw [← List.countP_append, List.take_append_drop]
  by_cases hz : matchCount (array.drop (len - 1)) x = 0
  · right
    unfold appendInPlace
    rw [hsum, hfd]
    unfold matchCount at hz ⊢
    rw [List.countP_append, hz, List.countP_filter]
    simp
  · left
    have hfront : matchCount (array.take (len - 1)) x = 0 := by omega
    have hk : (array.take len).findIdx (isFor x) = len - 1 := by
      by_contra hne
      have hk' : (array.take len).findIdx (isFor x) < len - 1 := by omega
      obtain ⟨b, hb⟩ := find?_isSome_of_countP_one (isFor x) (array.take len) hpool
      have hget : (array.take (len - 1))[(array.take len).findIdx (isFor x)]? = some b := by
        rw [List.getElem?_take_of_lt hk', ← List.getElem?_take_of_lt hlt,
          get?_findIdx_eq_find?, hb]
      have hmem : b ∈ array.take (len - 1) := List.getElem?_mem hget
      have hb' : isFor x b = true := List.find?_some hb
      unfold matchCount at hfront
      have := (List.countP_eq_zero.1 hfront) b hmem
      simp [hb'] at this
    unfold appendInPlace
    rw [hsum, hk, List.take_take]
    have hdrop : List.drop (len - 1 + 1) (List.take len array) = [] := by
      apply List.drop_eq_nil_of_le
      rw [hplen]; omega
    rw [hdrop, List.append_nil, Nat.min_eq_left (by omega), List.take_append_drop]

theorem matchStepInPlace_array (bs : List InitBuilder) (seen : List String)
    (st : InPlaceState) (x : String) (hlen : st.len ≤ st.array.length)
    (hpool : st.builders = pool bs seen)
    (hinv : st.array = bs ∨
      ∃ y, y ∈ st.pairs.map (fun p => p.ImageName) ∧ matchCount st.array y = 0) :
    ∃ st', matchStepInPlace st x = some st' ∧ st'.len ≤ st'.array.length ∧
      st'.builders = pool bs (x :: seen) ∧
      (st'.array = bs ∨
        ∃ y, y ∈ st'.pairs.map (fun p => p.ImageName) ∧ matchCount st'.array y = 0) := by
  refine ⟨_, matchStepInPlace_eq st x, ?_⟩
  have hbl : st.builders.length = st.len := by
    simp [InPlaceState.builders, hlen]
  by_cases h : matchCount st.builders x = 1
  · rw [if_pos h]
    have hpairable : pairable bs seen x = true := by
      rw [hpool] at h
      exact (matchCount_pool_eq_one bs seen x).1 h
    have hbs : matchCount bs x = 1 := by
      simp only [pairable, Bool.and_eq_true, decide_eq_true_eq] at hpairable
      exact hpairable.2
    have hlt := findIdx_lt_of_countP_one (isFor x) st.builders h
    obtain ⟨b, hb⟩ := find?_isSome_of_countP_one (isFor x) st.builders h
    have hfd := take_drop_findIdx_of_countP_one (isFor x) st.builders h
    have hcnt : (st.builders.take (st.builders.findIdx (isFor x))).length +
        (st.builders.drop (st.builders.findIdx (isFor x) + 1)).length ≤ st.array.length := by
      rw [List.length_take, List.length_drop]; omega
    have hsubF : ∀ a ∈ st.builders.take (st.builders.findIdx (isFor x)), a ∈ st.array :=
      fun a ha => List.mem_of_mem_take (List.mem_of_mem_take ha)
    have hsubB : ∀ a ∈ st.builders.drop (st.builders.findIdx (isFor x) + 1), a ∈ st.array :=
      fun a ha => List.mem_of_mem_take (List.mem_of_mem_drop ha)
    refine ⟨?_, ?_, ?_⟩
    · show _ ≤ (appendInPlace _ _ _).length
      rw [length_appendInPlace _ _ _ hcnt]
      exact hcnt
    · show List.take _ (appendInPlace _ _ _) = _
      rw [take_appendInPlace, hfd, hpool]
      exact pool_cons_of_pairable bs seen x hpairable
    · have hname : x ∈ (st.pairs ++ ((st.builders.find? (isFor x)).toList.map fun b =>
          ({ ImageName := x, Builder := b } : BuilderImagePair))).map
          (fun p => p.ImageName) := by
        rw [hb]; simp
      rcases hinv with harr | ⟨y, hy, hzero⟩
      · have hpool' : matchCount (st.array.take st.len) x = 1 := h
        have hall : matchCount st.array x = 1 := by rw [harr]; exact hbs
        rcases appendInPlace_unique st.array st.len x hlen hpool' hall with hsame | hgone
        · left
          show appendInPlace _ _ _ = bs
          rw [← harr]
          exact hsame
        · right
          exact ⟨x, hname, hgone⟩
      · right
        refine ⟨y, ?_, ?_⟩
        · show y ∈ List.map _ (_ ++ _)
          rw [List.map_append]
          exact List.mem_append_left _ hy
        · exact matchCount_eq_zero_of_subset _ _ y
            (mem_of_mem_appendInPlace _ _ _ hsubF hsubB) hzero
  · rw [if_neg h]
    have hnot : pairable bs seen x = false := by
      rw [hpool] at h
      cases hp : pairable bs seen x with
      | false => rfl
      | true => exact absurd ((matchCount_pool_eq_one bs seen x).2 hp) h
    refine ⟨hlen, ?_, hinv⟩
    show st.builders = _
    rw [hpool]
    exact pool_cons_of_not_pairable bs seen x hnot

theorem foldlM_matchStepInPlace_array (bs : List InitBuilder) (rest seen : List String)
    (st : InPlaceState) (hlen : st.len ≤ st.array.length)
    (hpool : st.builders = pool bs seen)
    (hinv : st.array = bs ∨
      ∃ y, y ∈ st.pairs.map (fun p => p.ImageName) ∧ matchCount st.array y = 0) :
    ∃ st', rest.foldlM matchStepInPlace st = some st' ∧
      (st'.array = bs ∨
        ∃ y, y ∈ st'.pairs.map (fun p => p.ImageName) ∧ matchCount st'.array y = 0) := by
  induction rest generalizing seen st with
  | nil => exact ⟨st, rfl, hinv⟩
  | cons x rest ih =>
    obtain ⟨st1, h1, h2, h3, h4⟩ := matchStepInPlace_array bs seen st x hlen hpool hinv
    obtain ⟨st2, k1, k2⟩ := ih (x :: seen) st1 h2 h3 h4
    exact ⟨st2, by rw [List.foldlM_cons, h1]; exact k1, k2⟩

/-- After a run on the caller's array, either the array is as it was, or some
paired name has no builder left in the array. -/
theorem matchBuildersToImagesInPlace_array (parse : ReferenceParser) (bs : List InitBuilder)
    (images : List String) (r : List BuilderImagePair × List InitBuilder × List String)
    (array : List InitBuilder)
    (h : matchBuildersToImagesInPlace parse bs images = some (r, array)) :
    array = bs ∨ ∃ y, y ∈ r.1.map (fun p => p.ImageName) ∧ matchCount array y = 0 := by
  obtain ⟨st, h1, h2⟩ := foldlM_matchStepInPlace_array bs (stripTags parse images) []
    ⟨[], bs, bs.length, sortedSet.empty⟩ (le_refl _)
    (by simp [InPlaceState.builders, pool_nil]) (Or.inl rfl)
  unfold matchBuildersToImagesInPlace at h
  simp only [Option.bind_eq_bind, h1, Option.some_bind, Option.some.injEq, Prod.mk.injEq] at h
  obtain ⟨hr, ha⟩ := h
  rw [← ha, ← hr]
  exact h2

/-- The run on the caller's array returns what the run on the values returns. -/
theorem matchBuildersToImagesInPlace_results (parse : ReferenceParser) (bs : List InitBuilder)
    (images : List String) :
    ∃ array, matchBuildersToImagesInPlace parse bs images = some
      ((refPairs bs [] (stripTags parse images),
        pool bs (stripTags parse images),
        ((refUnresolved bs [] (stripTags parse images)).foldl sortedSet.add
          sortedSet.empty).values), array) ∧
      array.length = bs.length ∧
      array.take (pool bs (stripTags parse images)).length = pool bs (stripTags parse images) ∧
      (refPairs bs [] (stripTags parse images) = [] → array = bs) := by
  obtain ⟨st, h1, h2, h3, h4, _, h6⟩ :=
    foldlM_matchStepInPlace_refines (stripTags parse images)
      ⟨[], bs, bs.length, sortedSet.empty⟩ (le_refl _)
  have e : (⟨[], bs, bs.length, sortedSet.empty⟩ : InPlaceState).toMatchState =
      ⟨[], bs, sortedSet.empty⟩ := by
    simp [InPlaceState.toMatchState, InPlaceState.builders]
  rw [e] at h2
  have hval := matchBuildersToImages_eq parse bs images
  unfold matchBuildersToImages at hval
  simp only [Option.bind_eq_bind, h2, Option.some_bind, Option.some.injEq, Prod.mk.injEq] at hval
  obtain ⟨hp, hl, hu⟩ := hval
  have hp' : st.pairs = refPairs bs [] (stripTags parse images) := hp
  have hl' : st.builders = pool bs (stripTags parse images) := hl
  have hu' : st.unresolvedImages.values = _ := hu
  refine ⟨st.array, ?_, h3, ?_, ?_⟩
  · unfold matchBuildersToImagesInPlace
    simp only [Option.bind_eq_bind, h1, Option.some_bind]
    rw [hp', hl', hu']
  · rw [← hl']
    have hlen : st.builders.length = st.len := by
      simp [InPlaceState.builders, h4]
    rw [hlen]
    rfl
  · intro hnil
    exact (h6 (by rw [hp', hnil])).1

/-! ## Paired positions and leftover builders -/

theorem pairedPositions_nodup (bs : List InitBuilder) (ns : List String) :
    (pairedPositions bs ns).Nodup := by
  apply List.Nodup.map_on _ (refPairs_names_nodup bs [] ns)
  intro n hn m hm hnm
  obtain ⟨hn1, hn2⟩ := (mem_pair_names bs ns n).1 hn
  obtain ⟨hm1, hm2⟩ := (mem_pair_names bs ns m).1 hm
  obtain ⟨b, hb⟩ := find?_isSome_of_countP_one (isFor n) bs hn2
  obtain ⟨c, hc⟩ := find?_isSome_of_countP_one (isFor m) bs hm2
  have hb' := hb
  have hc' := hc
  rw [← get?_findIdx_eq_find?] at hb' hc'
  have e : b = c := by
    have : some b = some c := by rw [← hb', ← hc']; simp only [hnm]
    exact Option.some.inj this
  rw [← (isFor_iff n b).1 (List.find?_some hb), ← (isFor_iff m c).1 (List.find?_some hc), e]

theorem pairedPositions_forall₂ (bs : List InitBuilder) (ns : List String) :
    List.Forall₂ (fun p i => bs[i]? = some p.Builder) (refPairs bs [] ns)
      (pairedPositions bs ns) := by
  unfold pairedPositions
  rw [List.map_map, List.forall₂_map_right_iff, List.forall₂_same]
  intro p hp
  have hp' := ((mem_refPairs bs [] _ p).1 hp).2.2
  simpa [get?_findIdx_eq_find?] using hp'

theorem mem_pairedPositions (bs : List InitBuilder) (ns : List String) (i : Nat)
    (b : InitBuilder) (hb : bs[i]? = some b) :
    i ∈ pairedPositions bs ns ↔ consumed bs ns b = true := by
  unfold pairedPositions
  rw [List.mem_map]
  constructor
  · rintro ⟨n, hn, rfl⟩
    obtain ⟨hn1, hn2⟩ := (mem_pair_names bs ns n).1 hn
    obtain ⟨c, hc⟩ := find?_isSome_of_countP_one (isFor n) bs hn2
    rw [get?_findIdx_eq_find?, hc] at hb
    have e : c = b := Option.some.inj hb
    have hcfg : b.ConfiguredImage = n := by
      rw [← e]; exact (isFor_iff n c).1 (List.find?_some hc)
    simp [consumed, hcfg, hn1, hn2]
  · intro hcons
    have h1 : b.ConfiguredImage ∈ ns := by
      simp only [consumed, Bool.and_eq_true, decide_eq_true_eq] at hcons; exact hcons.1
    have h2 : matchCount bs b.ConfiguredImage = 1 := by
      simp only [consumed, Bool.and_eq_true, decide_eq_true_eq] at hcons; exact hcons.2
    refine ⟨b.ConfiguredImage, (mem_pair_names bs ns _).2 ⟨h1, h2⟩, ?_⟩
    exact (idx_eq_findIdx_of_countP_one (isFor b.ConfiguredImage) bs h2 i b hb
      ((isFor_iff _ b).2 rfl)).symm

theorem pool_eq_delete_positions (bs : List InitBuilder) (ns : List String) :
    pool bs ns =
      (bs.enum.filter fun ib => decide (ib.1 ∉ pairedPositions bs ns)).map Prod.snd := by
  have h : bs.enum.filter (fun ib => decide (ib.1 ∉ pairedPositions bs ns)) =
      bs.enum.filter ((fun b => !consumed bs ns b) ∘ Prod.snd) := by
    apply List.filter_congr
    rintro ⟨i, b⟩ hib
    have hb : bs[i]? = some b := List.mk_mem_enum_iff_getElem?.1 hib
    have := mem_pairedPositions bs ns i b hb
    cases hc : consumed bs ns b <;> simp_all
  rw [h, ← List.filter_map, List.enum_map_snd]
  rfl

theorem perm_of_find?_of_countP_one {α : Type} (p : α → Bool) (l : List α) (a : α)
    (h : l.countP p = 1) (ha : l.find? p = some a) :
    (a :: l.filter fun c => !p c).Perm l := by
  induction l with
  | nil => simp at ha
  | cons c l ih =>
    cases hc : p c with
    | true =>
      have h0 : l.countP p = 0 := by simpa [List.countP_cons, hc] using h
      have hall : ∀ b ∈ l, (!p b) = true := by
        intro b hb
        have := (List.countP_eq_zero.1 h0) b hb
        simpa using this
      have e : c = a := by simpa [List.find?_cons, hc] using ha
      simp only [List.filter_cons, hc, List.filter_eq_self.2 hall, Bool.not_true,
        Bool.false_eq_true, if_false]
      rw [e]
    | false =>
      have h1 : l.countP p = 1 := by simpa [List.countP_cons, hc] using h
      have ha' : l.find? p = some a := by simpa [List.find?_cons, hc] using ha
      have := ih h1 ha'
      simp only [List.filter_cons, hc, Bool.not_false, if_true]
      exact (List.Perm.swap c a _).trans (this.cons c)

theorem foldlM_matchStep_perm (l : List String) (st st' : MatchState)
    (h : l.foldlM matchStep st = some st') :
    ((st'.pairs.map fun p => p.Builder) ++ st'.builders).Perm
      ((st.pairs.map fun p => p.Builder) ++ st.builders) := by
  induction l generalizing st with
  | nil =>
    have e : st = st' := by simpa using h
    rw [e]
  | cons x l ih =>
    rw [List.foldlM_cons, matchStep_eq] at h
    refine (ih _ h).trans ?_
    by_cases hc : matchCount st.builders x = 1
    · obtain ⟨b, hb⟩ := find?_isSome_of_countP_one (isFor x) st.builders hc
      have hp := perm_of_find?_of_countP_one (isFor x) st.builders b hc hb
      simp only [hc, if_true, hb, Option.toList, List.map_cons, List.map_nil, List.map_append,
        List.append_assoc, List.singleton_append]
      exact List.Perm.append_left _ hp
    · simp only [hc, if_false]
      exact List.Perm.refl _

theorem refPairs_append_pool_perm (bs : List InitBuilder) (ns : List String) :
    (((refPairs bs [] ns).map fun p => p.Builder) ++ pool bs ns).Perm bs := by
  have h := foldlM_matchStep bs ns [] [] sortedSet.empty
  rw [pool_nil] at h
  have hp := foldlM_matchStep_perm ns _ _ h
  simp only [List.nil_append, List.append_nil, List.map_nil] at hp
  rwa [pool_congr bs ns.reverse ns (by simp)] at hp

/-! ## Claims -/

/-- C1 (as amended): when exactly one builder `b` of the input list is
configured for a normalized image name `X`, the returned pairs hold exactly one
pair named `X`, its builder is `b`, and `X` is reported unresolved exactly when
`X` occurs more than once among the normalized names. -/
theorem matchBuildersToImages_unique_builder (parse : ReferenceParser) (bs : List InitBuilder)
    (images : List String) (X : String) (b : InitBuilder)
    (hX : X ∈ stripTags parse images) (hone : matchCount bs X = 1)
    (hb : b ∈ bs) (hcfg : b.ConfiguredImage = X) :
    ∃ pairs left un, matchBuildersToImages parse bs images = some (pairs, left, un) ∧
      pairs.filter (fun p => decide (p.ImageName = X)) = [{ ImageName := X, Builder := b }] ∧
      (X ∈ un ↔ 2 ≤ (stripTags parse images).count X) := by
  refine ⟨_, _, _, matchBuildersToImages_eq parse bs images, ?_, ?_⟩
  · have hf : bs.find? (isFor X) = some b :=
      find?_eq_of_countP_one (isFor X) bs b hone hb ((isFor_iff X b).2 hcfg)
    rw [filter_refPairs, if_pos ⟨hX, by simp [pairable, hone]⟩, hf]
    rfl
  · rw [mem_unresolved]
    simp [hX, hone]

/-- C1, witness: the builder for `app` among two builders and three images. -/
theorem matchBuildersToImages_unique_builder_witness :
    ∃ pairs left un,
      matchBuildersToImages sampleParse
        [sampleBuilder "app" "a/Dockerfile", sampleBuilder "web" "web/Dockerfile"]
        ["app:v1", "web:latest", "db:v2"] = some (pairs, left, un) ∧
      pairs.filter (fun p => decide (p.ImageName = "app")) =
        [{ ImageName := "app", Builder := sampleBuilder "app" "a/Dockerfile" }] ∧
      ("app" ∈ un ↔
        2 ≤ (stripTags sampleParse ["app:v1", "web:latest", "db:v2"]).count "app") :=
  matchBuildersToImages_unique_builder sampleParse
    [sampleBuilder "app" "a/Dockerfile", sampleBuilder "web" "web/Dockerfile"]
    ["app:v1", "web:latest", "db:v2"] "app" (sampleBuilder "app" "a/Dockerfile")
    (by decide) (by decide) (List.mem_cons_self _ _) rfl

/-- C1, counterexample to the claim as first stated: with the single builder
for `app` and the images `app:v1`, `app:v2`, the name `app` is normalized from
the input, exactly one builder is configured for it, and yet `app` is in the
unresolved list that is returned. -/
theorem matchBuildersToImages_repeated_name_unresolved :
    "app" ∈ stripTags sampleParse ["app:v1", "app:v2"] ∧
    matchCount [sampleBuilder "app" "Dockerfile"] "app" = 1 ∧
    matchBuildersToImages sampleParse [sampleBuilder "app" "Dockerfile"] ["app:v1", "app:v2"] =
      some ([{ ImageName := "app", Builder := sampleBuilder "app" "Dockerfile" }], [], ["app"]) ∧
    ¬ (∃ pairs left un,
        matchBuildersToImages sampleParse [sampleBuilder "app" "Dockerfile"] ["app:v1", "app:v2"] =
          some (pairs, left, un) ∧ "app" ∉ un) := by
  have h : matchBuildersToImages sampleParse [sampleBuilder "app" "Dockerfile"]
      ["app:v1", "app:v2"] =
      some ([{ ImageName := "app", Builder := sampleBuilder "app" "Dockerfile" }], [], ["app"]) :=
    rfl
  refine ⟨by decide, by decide, h, ?_⟩
  rintro ⟨pairs, left, un, he, hn⟩
  rw [h] at he
  injection he with he
  injection he with _ he
  injection he with _ he
  subst he
  exact hn (List.mem_cons_self _ _)

/-- C2: when two or more builders of the input list are configured for a
normalized image name `X`, the name is reported unresolved, no pair is named
`X` or holds a builder configured for `X`, and every builder configured for `X`
is still among the leftover builders. -/
theorem matchBuildersToImages_shared_name (parse : ReferenceParser) (bs : List InitBuilder)
    (images : List String) (X : String)
    (hX : X ∈ stripTags parse images) (h2 : 2 ≤ matchCount bs X) :
    ∃ pairs left un, matchBuildersToImages parse bs images = some (pairs, left, un) ∧
      X ∈ un ∧
      (∀ p ∈ pairs, p.ImageName ≠ X ∧ p.Builder.ConfiguredImage ≠ X) ∧
      left.filter (isFor X) = bs.filter (isFor X) ∧
      (∀ b ∈ bs, b.ConfiguredImage = X → b ∈ left) := by
  have hne : matchCount bs X ≠ 1 := by omega
  have hfilter := pool_filter_isFor bs (stripTags parse images) X hne
  refine ⟨_, _, _, matchBuildersToImages_eq parse bs images, ?_, ?_, hfilter, ?_⟩
  · rw [mem_unresolved]
    exact ⟨hX, Or.inl hne⟩
  · intro p hp
    obtain ⟨_, hpair, hfind⟩ := (mem_refPairs bs [] _ p).1 hp
    have hcount : matchCount bs p.ImageName = 1 := by simpa [pairable] using hpair
    have hcfg : p.Builder.ConfiguredImage = p.ImageName :=
      (isFor_iff _ _).1 (List.find?_some hfind)
    have hname : p.ImageName ≠ X := by
      intro e; rw [e] at hcount; exact hne hcount
    exact ⟨hname, by rw [hcfg]; exact hname⟩
  · intro b hb hcfg
    have hmem : b ∈ bs.filter (isFor X) := List.mem_filter.2 ⟨hb, (isFor_iff X b).2 hcfg⟩
    rw [← hfilter] at hmem
    exact (List.mem_filter.1 hmem).1

/-- C2, witness: two builders configured for `app`. -/
theorem matchBuildersToImages_shared_name_witness :
    ∃ pairs left un,
      matchBuildersToImages sampleParse
        [sampleBuilder "app" "a/Dockerfile", sampleBuilder "app" "b/Dockerfile"]
        ["app:v1"] = some (pairs, left, un) ∧
      "app" ∈ un ∧
      (∀ p ∈ pairs, p.ImageName ≠ "app" ∧ p.Builder.ConfiguredImage ≠ "app") ∧
      left.filter (isFor "app") =
        [sampleBuilder "app" "a/Dockerfile", sampleBuilder "app" "b/Dockerfile"].filter
          (isFor "app") ∧
      (∀ b ∈ [sampleBuilder "app" "a/Dockerfile", sampleBuilder "app" "b/Dockerfile"],
        b.ConfiguredImage = "app" → b ∈ left) :=
  matchBuildersToImages_shared_name sampleParse
    [sampleBuilder "app" "a/Dockerfile", sampleBuilder "app" "b/Dockerfile"]
    ["app:v1"] "app" (by decide) (by decide)

/-- C3: matching is injective. The returned pairs can be given pairwise
distinct positions of the input builder list, each pair holding the builder at
its position. -/
theorem matchBuildersToImages_injective (parse : ReferenceParser) (bs : List InitBuilder)
    (images : List String) :
    ∃ pairs left un, matchBuildersToImages parse bs images = some (pairs, left, un) ∧
      ∃ idxs : List Nat, idxs.Nodup ∧
        List.Forall₂ (fun p i => bs[i]? = some p.Builder) pairs idxs := by
  refine ⟨_, _, _, matchBuildersToImages_eq parse bs images,
    ((refPairs bs [] (stripTags parse images)).map fun p => p.ImageName).map
      (fun n => bs.findIdx (isFor n)), ?_, ?_⟩
  · apply List.Nodup.map_on _ (refPairs_names_nodup bs [] _)
    intro n hn m hm hnm
    obtain ⟨p, hp, rfl⟩ := List.mem_map.1 hn
    obtain ⟨q, hq, rfl⟩ := List.mem_map.1 hm
    have hp' := ((mem_refPairs bs [] _ p).1 hp).2.2
    have hq' := ((mem_refPairs bs [] _ q).1 hq).2.2
    rw [← get?_findIdx_eq_find?] at hp' hq'
    have e : p.Builder = q.Builder := by
      have : some p.Builder = some q.Builder := by
        rw [← hp', ← hq']; simp only [hnm]
      exact Option.some.inj this
    have hpf := ((mem_refPairs bs [] _ p).1 hp).2.2
    have hqf := ((mem_refPairs bs [] _ q).1 hq).2.2
    rw [← (isFor_iff _ _).1 (List.find?_some hpf), ← (isFor_iff _ _).1 (List.find?_some hqf), e]
  · rw [List.map_map, List.forall₂_map_right_iff, List.forall₂_same]
    intro p hp
    have hp' := ((mem_refPairs bs [] _ p).1 hp).2.2
    simpa [get?_findIdx_eq_find?] using hp'

/-- C4: `findExactlyOneMatchingBuilder` answers as counting all matches does.
It returns an index other than `-1` exactly when one position holds a builder
configured for `x`, and then returns that position; with no match or with two
or more it returns `-1`. -/
theorem findExactlyOneMatchingBuilder_spec (bs : List InitBuilder) (x : String) :
    findExactlyOneMatchingBuilder bs x = findByCounting bs x ∧
    (findExactlyOneMatchingBuilder bs x ≠ -1 ↔ matchCount bs x = 1) ∧
    (matchCount bs x = 0 ∨ 2 ≤ matchCount bs x → findExactlyOneMatchingBuilder bs x = -1) ∧
    (matchCount bs x = 1 → ∃ n : Nat, findExactlyOneMatchingBuilder bs x = (n : Int) ∧
      n < bs.length ∧
      ∀ m : Nat, (bs[m]?.map fun b => b.ConfiguredImage) = some x ↔ m = n) := by
  have heq := findExactlyOneMatchingBuilder_eq bs x
  refine ⟨heq, ?_, ?_, ?_⟩
  · rw [heq, findByCounting]
    by_cases h : matchCount bs x = 1
    · simp only [h, if_true, iff_true]; omega
    · simp [h]
  · intro h
    rw [heq, findByCounting, if_neg (by omega)]
  · intro h
    refine ⟨bs.findIdx (isFor x), by rw [heq, findByCounting, if_pos h],
      findIdx_lt_of_countP_one (isFor x) bs h, ?_⟩
    intro m
    constructor
    · intro hm
      cases hb : bs[m]? with
      | none => simp [hb] at hm
      | some b =>
        have hcfg : b.ConfiguredImage = x := by simpa [hb] using hm
        exact idx_eq_findIdx_of_countP_one (isFor x) bs h m b hb ((isFor_iff x b).2 hcfg)
    · intro hm
      obtain ⟨b, hb⟩ := find?_isSome_of_countP_one (isFor x) bs h
      rw [hm, get?_findIdx_eq_find?, hb]
      simpa using (isFor_iff x b).1 (List.find?_some hb)

/-- C5: every returned pair holds a builder of the input list whose configured
image is the pair's image name. -/
theorem matchBuildersToImages_pairs_sound (parse : ReferenceParser) (bs : List InitBuilder)
    (images : List String) :
    ∃ pairs left un, matchBuildersToImages parse bs images = some (pairs, left, un) ∧
      ∀ p ∈ pairs, p.Builder.ConfiguredImage = p.ImageName ∧ p.Builder ∈ bs := by
  refine ⟨_, _, _, matchBuildersToImages_eq parse bs images, ?_⟩
  intro p hp
  have hfind := ((mem_refPairs bs [] _ p).1 hp).2.2
  exact ⟨(isFor_iff _ _).1 (List.find?_some hfind), List.mem_of_find?_eq_some hfind⟩


/-- C6: the unresolved images come back in strictly ascending order, hence
sorted and without a repeated entry. -/
theorem matchBuildersToImages_unresolved_sorted (parse : ReferenceParser)
    (bs : List InitBuilder) (images : List String) :
    ∃ pairs left un, matchBuildersToImages parse bs images = some (pairs, left, un) ∧
      List.Sorted (· ≤ ·) un ∧ un.Nodup ∧ List.Sorted (· < ·) un := by
  refine ⟨_, _, _, matchBuildersToImages_eq parse bs images, ?_⟩
  have hs := sortedSet.values_sorted
    ((refUnresolved bs [] (stripTags parse images)).foldl sortedSet.add sortedSet.empty)
  have hn := sortedSet.values_nodup _
    (sortedSet.nodup_foldl_add (refUnresolved bs [] (stripTags parse images)) sortedSet.empty
      (by simp [sortedSet.empty]))
  exact ⟨hs, hn, hs.lt_of_le hn⟩

/-- C7: `stripTags` returns, in input order, the base name of every input that
parses without a digest and nothing for the others. Each base name comes out as
many times as there are inputs that yield it, and the output is no longer than
the input. -/
theorem stripTags_spec (parse : ReferenceParser) (images : List String) :
    stripTags parse images = images.filterMap (keptBaseName parse) ∧
    (stripTags parse images).length ≤ images.length ∧
    (∀ b : String, (stripTags parse images).count b =
      images.countP (fun s => decide (keptBaseName parse s = some b))) ∧
    (∀ more : List String,
      stripTags parse (images ++ more) = stripTags parse images ++ stripTags parse more) := by
  refine ⟨stripTags_eq_filterMap parse images, ?_, ?_, ?_⟩
  · rw [stripTags_eq_filterMap]
    exact List.length_filterMap_le _ _
  · intro b
    rw [stripTags_eq_filterMap]
    exact count_filterMap_eq_countP _ _ _
  · intro more
    simp [stripTags_eq_filterMap, List.filterMap_append]

/-- C8: when every image either fails to parse or parses with a digest, the
matcher returns no pair, no unresolved image and the builders it was given. -/
theorem matchBuildersToImages_all_dropped (parse : ReferenceParser) (bs : List InitBuilder)
    (images : List String)
    (h : ∀ image ∈ images,
      (∃ e, parse image = .error e) ∨ (∃ r, parse image = .ok r ∧ r.Digest ≠ "")) :
    matchBuildersToImages parse bs images = some ([], bs, []) := by
  have hs : stripTags parse images = [] := by
    rw [stripTags_eq_filterMap, List.filterMap_eq_nil_iff]
    intro image himage
    unfold keptBaseName
    rcases h image himage with ⟨e, he⟩ | ⟨r, hr, hd⟩
    · rw [he]
    · rw [hr]; simp [hd]
  rw [matchBuildersToImages_eq, hs, pool_nil]
  rfl

/-- C8, witness: a single image referenced by digest. -/
theorem matchBuildersToImages_all_dropped_witness :
    matchBuildersToImages sampleParse [sampleBuilder "app" "Dockerfile"]
      ["registry.io/app@sha256:deadbeef"] = some ([], [sampleBuilder "app" "Dockerfile"], []) :=
  matchBuildersToImages_all_dropped sampleParse [sampleBuilder "app" "Dockerfile"]
    ["registry.io/app@sha256:deadbeef"]
    (by
      intro image himage
      rw [List.mem_singleton.1 himage]
      exact Or.inr ⟨_, rfl, by decide⟩)

/-- C9: the image names of the returned pairs form a subsequence of the
normalized image names, and `Artifacts` yields the artifact of each pair at the
position of that pair. -/
theorem matchBuildersToImages_pair_order (parse : ReferenceParser) (bs : List InitBuilder)
    (images : List String) :
    ∃ pairs left un, matchBuildersToImages parse bs images = some (pairs, left, un) ∧
      List.Sublist (pairs.map fun p => p.ImageName) (stripTags parse images) ∧
      ∀ dir : String → String,
        Artifacts dir pairs = pairs.map fun p => p.Builder.UpdateArtifact (newArtifact dir p) :=
  ⟨_, _, _, matchBuildersToImages_eq parse bs images, refPairs_names_sublist bs [] _,
    fun dir => Artifacts_eq_map dir _⟩

/-- C10: the artifact handed to the builder of a pair carries the image name of
the pair; its workspace is the directory of the builder's path exactly when that
directory is not `"."`, and is unset when it is. With a builder that leaves the
workspace alone, the path `Dockerfile` gives no workspace and `svc/Dockerfile`
gives `svc`. -/
theorem Artifacts_workspace (dir : String → String) (pairs : List BuilderImagePair) :
    Artifacts dir pairs = (pairs.map fun p => p.Builder.UpdateArtifact (newArtifact dir p)) ∧
    (∀ pair : BuilderImagePair,
      (newArtifact dir pair).ImageName = pair.ImageName ∧
      ((newArtifact dir pair).Workspace = dir pair.Builder.Path ↔ dir pair.Builder.Path ≠ ".") ∧
      (dir pair.Builder.Path = "." → (newArtifact dir pair).Workspace = "")) ∧
    (∀ (b : InitBuilder) (image : String),
      (∀ a, (b.UpdateArtifact a).Workspace = a.Workspace) →
        (b.Path = "Dockerfile" →
          (Artifacts filepathDir [{ ImageName := image, Builder := b }]).map
            (fun a => a.Workspace) = [""]) ∧
        (b.Path = "svc/Dockerfile" →
          (Artifacts filepathDir [{ ImageName := image, Builder := b }]).map
            (fun a => a.Workspace) = ["svc"])) ∧
    Artifacts filepathDir [{ ImageName := "app", Builder := sampleBuilder "app" "Dockerfile" }] =
      [{ ImageName := "app", Workspace := "", BuilderFields := ["Dockerfile"] }] ∧
    Artifacts filepathDir [{ ImageName := "app", Builder := sampleBuilder "app" "svc/Dockerfile" }] =
      [{ ImageName := "app", Workspace := "svc", BuilderFields := ["svc/Dockerfile"] }] := by
  refine ⟨Artifacts_eq_map dir pairs, ?_, ?_, rfl, rfl⟩
  · intro pair
    unfold newArtifact
    by_cases h : dir pair.Builder.Path = "."
    · simp [h]
    · simp [h]
  · intro b image hb
    have hd : filepathDir "Dockerfile" = "." := by decide
    have hs : filepathDir "svc/Dockerfile" = "svc" := by decide
    constructor
    · intro hp
      simp [Artifacts_eq_map, hb, newArtifact, hp, hd]
    · intro hp
      simp [Artifacts_eq_map, hb, newArtifact, hp, hs]



/-- C11: `Artifacts` returns one artifact per pair, none for no pair. The
artifact at a position is the result of the `UpdateArtifact` of the builder of
the pair at that position, applied once to the artifact newly made for that
pair. -/
theorem Artifacts_one_per_pair (dir : String → String) (pairs : List BuilderImagePair) :
    (Artifacts dir pairs).length = pairs.length ∧
    Artifacts dir [] = [] ∧
    Artifacts dir pairs = (pairs.map fun p => p.Builder.UpdateArtifact (newArtifact dir p)) ∧
    (∀ i : Nat, (Artifacts dir pairs)[i]? =
      pairs[i]?.map fun p => p.Builder.UpdateArtifact (newArtifact dir p)) ∧
    (∀ (p : BuilderImagePair) (more : List BuilderImagePair),
      Artifacts dir (p :: more) =
        p.Builder.UpdateArtifact (newArtifact dir p) :: Artifacts dir more) := by
  refine ⟨by simp [Artifacts_eq_map], rfl, Artifacts_eq_map dir pairs, ?_, ?_⟩
  · intro i
    rw [Artifacts_eq_map, List.getElem?_map]
  · intro p more
    simp [Artifacts_eq_map]

/-- C12: when no two builders share a configured image, matching a permutation
of the images returns the same leftover builders, the same unresolved images
and a permutation of the pairs. -/
theorem matchBuildersToImages_perm (parse : ReferenceParser) (bs : List InitBuilder)
    (images images' : List String)
    (_hdistinct : (bs.map fun b => b.ConfiguredImage).Nodup)
    (hperm : images'.Perm images) :
    ∃ pairs pairs' left un,
      matchBuildersToImages parse bs images = some (pairs, left, un) ∧
      matchBuildersToImages parse bs images' = some (pairs', left, un) ∧
      pairs'.Perm pairs := by
  have hns : (stripTags parse images').Perm (stripTags parse images) := by
    rw [stripTags_eq_filterMap, stripTags_eq_filterMap]
    exact hperm.filterMap _
  have hleft : oneShotLeftover bs (stripTags parse images') =
      oneShotLeftover bs (stripTags parse images) := by
    rw [← pool_eq_oneShotLeftover, ← pool_eq_oneShotLeftover]
    exact pool_congr bs _ _ fun x => hns.mem_iff
  have hun : oneShotUnresolved bs (stripTags parse images') =
      oneShotUnresolved bs (stripTags parse images) := by
    apply eq_of_sorted_of_mem_iff
    · exact sorted_toList_le_insertionSort _
    · exact sorted_toList_le_insertionSort _
    · exact (List.perm_insertionSort _ _).nodup_iff.2 (List.nodup_dedup _)
    · exact (List.perm_insertionSort _ _).nodup_iff.2 (List.nodup_dedup _)
    · intro x
      rw [mem_oneShotUnresolved, mem_oneShotUnresolved, hns.mem_iff, hns.count_eq]
  refine ⟨_, oneShotPairs bs (stripTags parse images'), _, _,
    matchBuildersToImages_eq_oneShot parse bs images, ?_, ?_⟩
  · rw [matchBuildersToImages_eq_oneShot, hleft, hun]
  · exact (distinctNames_perm _ _ hns).filterMap _

/-- C12, witness: two builders with different configured images and the three
images in another order. -/
theorem matchBuildersToImages_perm_witness :
    ∃ pairs pairs' left un,
      matchBuildersToImages sampleParse
        [sampleBuilder "app" "a/Dockerfile", sampleBuilder "web" "web/Dockerfile"]
        ["app:v1", "web:latest", "db:v2"] = some (pairs, left, un) ∧
      matchBuildersToImages sampleParse
        [sampleBuilder "app" "a/Dockerfile", sampleBuilder "web" "web/Dockerfile"]
        ["db:v2", "web:latest", "app:v1"] = some (pairs', left, un) ∧
      pairs'.Perm pairs :=
  matchBuildersToImages_perm sampleParse
    [sampleBuilder "app" "a/Dockerfile", sampleBuilder "web" "web/Dockerfile"]
    ["app:v1", "web:latest", "db:v2"] ["db:v2", "web:latest", "app:v1"]
    (by decide) (by decide)

/-- C13: with a parser that reads `app:v1`, `web:latest` and `db:v2` as the base
names `app`, `web` and `db` without digest, the builders for `app` (path
`a/Dockerfile`) and `web` (path `web/Dockerfile`) and these three images give
the pairs `(app, b1)`, `(web, b2)`, no leftover builder and the unresolved
image `db`. -/
theorem matchBuildersToImages_scenario (parse : ReferenceParser)
    (update1 update2 : Artifact → Artifact) (tag1 tag2 tag3 : String)
    (h1 : parse "app:v1" = .ok { BaseName := "app", Tag := tag1, Digest := "" })
    (h2 : parse "web:latest" = .ok { BaseName := "web", Tag := tag2, Digest := "" })
    (h3 : parse "db:v2" = .ok { BaseName := "db", Tag := tag3, Digest := "" }) :
    matchBuildersToImages parse
      [{ ConfiguredImage := "app", Path := "a/Dockerfile", UpdateArtifact := update1 },
       { ConfiguredImage := "web", Path := "web/Dockerfile", UpdateArtifact := update2 }]
      ["app:v1", "web:latest", "db:v2"] =
    some
      ([{ ImageName := "app",
          Builder :=
            { ConfiguredImage := "app", Path := "a/Dockerfile", UpdateArtifact := update1 } },
        { ImageName := "web",
          Builder :=
            { ConfiguredImage := "web", Path := "web/Dockerfile", UpdateArtifact := update2 } }],
       [], ["db"]) := by
  have hs : stripTags parse ["app:v1", "web:latest", "db:v2"] = ["app", "web", "db"] := by
    simp [stripTags_eq_filterMap, keptBaseName, h1, h2, h3]
  rw [matchBuildersToImages_eq_oneShot, hs]
  rfl

/-- C13, witness: the scenario with the sample parser. -/
theorem matchBuildersToImages_scenario_witness :
    matchBuildersToImages sampleParse
      [{ ConfiguredImage := "app", Path := "a/Dockerfile", UpdateArtifact := id },
       { ConfiguredImage := "web", Path := "web/Dockerfile", UpdateArtifact := id }]
      ["app:v1", "web:latest", "db:v2"] =
    some
      ([{ ImageName := "app",
          Builder := { ConfiguredImage := "app", Path := "a/Dockerfile", UpdateArtifact := id } },
        { ImageName := "web",
          Builder := { ConfiguredImage := "web", Path := "web/Dockerfile", UpdateArtifact := id } }],
       [], ["db"]) :=
  matchBuildersToImages_scenario sampleParse id id "v1" "latest" "v2" rfl rfl rfl


/-- C14 (as amended): run on the backing array of the caller's slice,
`matchBuildersToImages` returns what it returns on the values alone. The call
keeps the length of the caller's sequence and leaves the leftover builders at
its front. A second call on the caller's sequence returns the same pairs,
leftover builders and unresolved images exactly when the first call left that
sequence unchanged; it does so when no pair is formed, and also, for instance,
when the only pair takes the last builder (builders for `app` and `web`, image
`web:latest`). -/
theorem matchBuildersToImagesInPlace_spec (parse : ReferenceParser) (bs : List InitBuilder)
    (images : List String) :
    ∃ pairs left un array,
      matchBuildersToImagesInPlace parse bs images = some ((pairs, left, un), array) ∧
      matchBuildersToImages parse bs images = some (pairs, left, un) ∧
      array.length = bs.length ∧
      array.take left.length = left ∧
      (pairs = [] → array = bs) ∧
      ((∃ array', matchBuildersToImagesInPlace parse array images =
          some ((pairs, left, un), array')) ↔ array = bs) ∧
      matchBuildersToImagesInPlace sampleParse
          [sampleBuilder "app" "a/Dockerfile", sampleBuilder "web" "web/Dockerfile"]
          ["web:latest"] =
        some (([{ ImageName := "web", Builder := sampleBuilder "web" "web/Dockerfile" }],
            [sampleBuilder "app" "a/Dockerfile"], []),
          [sampleBuilder "app" "a/Dockerfile", sampleBuilder "web" "web/Dockerfile"]) := by
  obtain ⟨array, hrun, hlen, htake, hnil⟩ := matchBuildersToImagesInPlace_results parse bs images
  refine ⟨_, _, _, array, hrun, matchBuildersToImages_eq parse bs images, hlen, htake, hnil,
    ?_, rfl⟩
  constructor
  · rintro ⟨array', hagain⟩
    rcases matchBuildersToImagesInPlace_array parse bs images _ array hrun with h | ⟨y, hy, hzero⟩
    · exact h
    · exfalso
      obtain ⟨array'', hrun', _⟩ := matchBuildersToImagesInPlace_results parse array images
      rw [hagain] at hrun'
      have hpairs : refPairs bs [] (stripTags parse images) =
          refPairs array [] (stripTags parse images) := by
        injection hrun' with hrun'
        injection hrun' with hres _
        injection hres with hres _
      have hy' : y ∈ (refPairs bs [] (stripTags parse images)).map fun p => p.ImageName := hy
      rw [hpairs] at hy'
      have hone := ((mem_pair_names array (stripTags parse images) y).1 hy').2
      omega
  · intro h
    refine ⟨array, ?_⟩
    rw [h] at hrun ⊢
    exact hrun

/-- C14, counterexample to the claim as first stated: with the builders for
`app` and `web` and the image `app:v1`, the first call returns the pair for
`app`, the leftover builder for `web` and no unresolved image, and leaves the
caller's sequence holding the builder for `web` twice; the second call on that
sequence returns no pair, both entries as leftover builders and `app` as
unresolved. -/
theorem matchBuildersToImagesInPlace_rerun_differs :
    ∃ first array second array',
      matchBuildersToImagesInPlace sampleParse
        [sampleBuilder "app" "a/Dockerfile", sampleBuilder "web" "web/Dockerfile"] ["app:v1"] =
        some (first, array) ∧
      matchBuildersToImagesInPlace sampleParse array ["app:v1"] = some (second, array') ∧
      array.map (fun b => b.ConfiguredImage) = ["web", "web"] ∧
      first.1.map (fun p => p.ImageName) = ["app"] ∧
      second.1.map (fun p => p.ImageName) = [] ∧
      first.2.1.map (fun b => b.ConfiguredImage) = ["web"] ∧
      second.2.1.map (fun b => b.ConfiguredImage) = ["web", "web"] ∧
      first.2.2 = [] ∧
      second.2.2 = ["app"] :=
  ⟨_, _, _, _, rfl, rfl, rfl, rfl, rfl, rfl, rfl, rfl, rfl⟩

/-- C15: the matcher with its shrinking pool returns what the one-shot
description computes against the original builder list: one pair per distinct
name with exactly one builder, by first occurrence; the builders with the
paired ones deleted; and the sorted duplicate-free list of the names that have
not exactly one builder or occur more than once. -/
theorem matchBuildersToImages_refines_oneShot (parse : ReferenceParser)
    (bs : List InitBuilder) (images : List String) :
    matchBuildersToImages parse bs images = some
      (oneShotPairs bs (stripTags parse images),
       oneShotLeftover bs (stripTags parse images),
       oneShotUnresolved bs (stripTags parse images)) := by
  rw [matchBuildersToImages_eq]
  have hpairs := refPairs_eq_oneShotPairs bs (stripTags parse images)
  have hleft := pool_eq_oneShotLeftover bs (stripTags parse images)
  have hun := unresolved_eq_oneShotUnresolved bs (stripTags parse images)
  rw [hpairs, hleft, hun]

/-- C16: no builder is lost or invented. The leftover builders are the input
builders with the positions of the paired builders deleted, in their original
order; pairs and leftover builders together are as many as the input builders
and form a permutation of them. -/
theorem matchBuildersToImages_builders_conserved (parse : ReferenceParser)
    (bs : List InitBuilder) (images : List String) :
    ∃ pairs left un, matchBuildersToImages parse bs images = some (pairs, left, un) ∧
      (∃ idxs : List Nat, idxs.Nodup ∧
        List.Forall₂ (fun p i => bs[i]? = some p.Builder) pairs idxs ∧
        left = (bs.enum.filter fun ib => decide (ib.1 ∉ idxs)).map Prod.snd) ∧
      List.Sublist left bs ∧
      pairs.length + left.length = bs.length ∧
      ((pairs.map fun p => p.Builder) ++ left).Perm bs := by
  have hperm := refPairs_append_pool_perm bs (stripTags parse images)
  refine ⟨_, _, _, matchBuildersToImages_eq parse bs images,
    ⟨pairedPositions bs (stripTags parse images), pairedPositions_nodup bs _,
      pairedPositions_forall₂ bs _, pool_eq_delete_positions bs _⟩,
    List.filter_sublist _, ?_, hperm⟩
  have := hperm.length_eq
  simpa using this

/-- C17: no image is lost or invented. A name is the image name of a returned
pair or a returned unresolved image exactly when it is a normalized image
name. -/
theorem matchBuildersToImages_images_conserved (parse : ReferenceParser)
    (bs : List InitBuilder) (images : List String) :
    ∃ pairs left un, matchBuildersToImages parse bs images = some (pairs, left, un) ∧
      ∀ x : String,
        (x ∈ pairs.map (fun p => p.ImageName) ∨ x ∈ un) ↔ x ∈ stripTags parse images := by
  refine ⟨_, _, _, matchBuildersToImages_eq parse bs images, ?_⟩
  intro x
  rw [mem_pair_names, mem_unresolved]
  constructor
  · rintro (h | h)
    · exact h.1
    · exact h.1
  · intro h
    by_cases hc : matchCount bs x = 1
    · exact Or.inl ⟨h, hc⟩
    · exact Or.inr ⟨h, Or.inl hc⟩

/-- C18: the image names of the returned pairs are pairwise distinct. No builder
configured for a paired name is left in the pool, and a paired name that occurs
again among the normalized names is reported unresolved. -/
theorem matchBuildersToImages_pair_names_distinct (parse : ReferenceParser)
    (bs : List InitBuilder) (images : List String) :
    ∃ pairs left un, matchBuildersToImages parse bs images = some (pairs, left, un) ∧
      (pairs.map fun p => p.ImageName).Nodup ∧
      ∀ x ∈ pairs.map (fun p => p.ImageName),
        (∀ b ∈ left, b.ConfiguredImage ≠ x) ∧
        (2 ≤ (stripTags parse images).count x → x ∈ un) := by
  refine ⟨_, _, _, matchBuildersToImages_eq parse bs images, refPairs_names_nodup bs [] _, ?_⟩
  intro x hx
  obtain ⟨hmem, hc⟩ := (mem_pair_names bs _ x).1 hx
  constructor
  · intro b hb hcfg
    have hkeep := (List.mem_filter.1 hb).2
    simp [consumed, hcfg, hmem, hc] at hkeep
  · intro h2
    rw [mem_unresolved]
    exact ⟨hmem, Or.inr h2⟩

/-- C19: indexing never goes out of range. `findExactlyOneMatchingBuilder`
returns `-1` or an index within the list, so the index and the two slice
expressions of the matcher are defined whenever they are evaluated, every
iteration yields a state, and `matchBuildersToImages` returns a result for
every input. -/
theorem findExactlyOneMatchingBuilder_in_range (bs : List InitBuilder) (x : String) :
    (findExactlyOneMatchingBuilder bs x = -1 ∨
      (0 ≤ findExactlyOneMatchingBuilder bs x ∧
        findExactlyOneMatchingBuilder bs x < (bs.length : Int))) ∧
    (findExactlyOneMatchingBuilder bs x ≠ -1 →
      (goIndex bs (findExactlyOneMatchingBuilder bs x)).isSome = true ∧
      (goSliceTo bs (findExactlyOneMatchingBuilder bs x)).isSome = true ∧
      (goSliceFrom bs (findExactlyOneMatchingBuilder bs x + 1)).isSome = true) ∧
    (∀ st : MatchState, (matchStep st x).isSome = true) ∧
    (∀ (parse : ReferenceParser) (images : List String),
      (matchBuildersToImages parse bs images).isSome = true) := by
  have hrange : findExactlyOneMatchingBuilder bs x = -1 ∨
      (0 ≤ findExactlyOneMatchingBuilder bs x ∧
        findExactlyOneMatchingBuilder bs x < (bs.length : Int)) := by
    rw [findExactlyOneMatchingBuilder_eq, findByCounting]
    by_cases h : matchCount bs x = 1
    · have hlt := findIdx_lt_of_countP_one (isFor x) bs h
      rw [if_pos h]
      exact Or.inr ⟨by omega, by exact_mod_cast hlt⟩
    · rw [if_neg h]
      exact Or.inl rfl
  refine ⟨hrange, ?_, ?_, ?_⟩
  · intro hne
    rcases hrange with h | ⟨h0, hlt⟩
    · exact absurd h hne
    · have hnat : (findExactlyOneMatchingBuilder bs x).toNat < bs.length := by omega
      refine ⟨?_, ?_, ?_⟩
      · simp [goIndex, h0, List.getElem?_eq_getElem hnat]
      · simp only [goSliceTo]
        rw [if_pos ⟨h0, by omega⟩]
        rfl
      · simp only [goSliceFrom]
        rw [if_pos ⟨by omega, by omega⟩]
        rfl
  · intro st
    rw [matchStep_eq]
    rfl
  · intro parse images
    rw [matchBuildersToImages_eq]
    rfl


end Skaffold
